import Mathlib

/-!
Shallow embedding of the Log table storage engine
(`src/dbms/src/Storages/StorageLog.cpp`) and proofs about the
marks/read/write machinery.

The embedding follows the C++ source:
* `Mark`, `StorageLog::loadMarks`, `LogBlockOutputStream::writeMarks`,
  `LogBlockOutputStream::writeData`, `StorageLog::read`,
  `StorageLog::StorageLog` / `StorageLog::addFiles` are translated directly.
* The data-type collaborator (`IDataType::enumerateStreams`,
  `getFileNameForStream`, serialization) is not part of the source file; it
  is modelled from the spec where the claims need it.

Files are modelled as byte lists (`List Nat`, each element < 256 by
construction of the encoder); machine integers are `Nat` with explicit
truncation where the 64-bit width matters (the little-endian encoder).
-/

namespace StorageLog

/-- Error kinds of the engine (abstract counterparts of the C++ error codes
`LOGICAL_ERROR`, `EMPTY_LIST_OF_COLUMNS_PASSED`, `NO_SUCH_COLUMN_IN_TABLE`,
`DUPLICATE_COLUMN`, `SIZES_OF_MARKS_FILES_ARE_INCONSISTENT`). -/
inductive Err where
  | logicalError
  | emptyColumns
  | noSuchColumn
  | duplicateColumn
  | inconsistentMarksFile
deriving Repr, DecidableEq

/-- `StorageLog::Mark`: a pair of cumulative row count and byte offset into the
compressed data file.  Both fields are `size_t` in the source. -/
structure Mark where
  rows : Nat
  offset : Nat
deriving Repr, DecidableEq, Inhabited

/-- Modelled from the spec: the data-type universe the engine's collaborator
exposes.  `IDataType` implementations are outside the source file; the spec
describes scalars (one substream), arrays (`sizes` plus element substreams)
and nullable types (`null` map plus nested substreams). -/
inductive DataType where
  | uint64
  | str
  | array (elem : DataType)
  | nullable (inner : DataType)
deriving Repr, DecidableEq

/-- Modelled from the spec: `IDataType::enumerateStreams` combined with
`IDataType::getFileNameForStream` — the ordered list of substream file names
of a column.  The spec's examples: a scalar column `a` yields `[a]`; an array
column `arr` yields `[arr.size0, arr]` (sizes first); a nullable column `n`
yields `[n.null, n]`.  `lvl` is the array nesting level used in the
`.size<level>` suffix. -/
def substreamNames : DataType → String → Nat → List String
  | .uint64, n, _ => [n]
  | .str, n, _ => [n]
  | .array t, n, lvl => (n ++ ".size" ++ toString lvl) :: substreamNames t n (lvl + 1)
  | .nullable t, n, lvl => (n ++ ".null") :: substreamNames t n lvl

/-- One entry of `StorageLog::files`: a registered substream data file and its
in-memory mark vector.  The position of the entry in the table's file list is
its `column_index` (the source stores the index explicitly and keeps
`column_names` as the index-ordered name vector; the list position encodes the
same data). -/
structure FileEntry where
  name : String
  marks : List Mark
deriving Repr, DecidableEq, Inhabited

/-- Look a substream name up in the file list, returning its `column_index`
(list position) and the entry, like `storage.files.find(stream_name)`. -/
def findFile : List FileEntry → String → Option (Nat × FileEntry)
  | [], _ => none
  | fe :: fs, n =>
    if fe.name = n then some (0, fe)
    else (findFile fs n).map (fun p => (p.1 + 1, p.2))

/-- The `stream_callback` loop of `StorageLog::addFiles`: register every
yet-unknown substream name with the next `column_index` (appending keeps
first-encounter order = list position = index). -/
def registerStreams (fs : List FileEntry) (ns : List String) : List FileEntry :=
  ns.foldl (fun fs sn => if (findFile fs sn).isSome then fs else fs ++ [⟨sn, []⟩]) fs

/-- `StorageLog::addFiles`: reject a column whose name is already a key of
`files` (the `DUPLICATE_COLUMN` check — note the check is against the map
keyed by substream names), then register the column's substreams. -/
def addFiles (fs : List FileEntry) (column_name : String) (t : DataType) :
    Except Err (List FileEntry) :=
  if (findFile fs column_name).isSome then
    .error .duplicateColumn
  else
    .ok (registerStreams fs (substreamNames t column_name 0))

/-- The constructor's loop over the column list, calling `addFiles` per
column. -/
def addAll : List (String × DataType) → List FileEntry → Except Err (List FileEntry)
  | [], fs => .ok fs
  | c :: cs, fs =>
    match addFiles fs c.1 c.2 with
    | .error e => .error e
    | .ok fs' => addAll cs fs'

/-- `StorageLog::StorageLog` (descriptor construction): fail with
`EMPTY_LIST_OF_COLUMNS_PASSED` on an empty column list, otherwise run
`addFiles` for every column in order. -/
def construct (cols : List (String × DataType)) : Except Err (List FileEntry) :=
  if cols = [] then .error .emptyColumns
  else addAll cols []

/-- Reference list of first encounters: fold a name list into an accumulator,
appending each name the first time it appears.  The file list produced by
construction has exactly these names, in this order (position =
`column_index`). -/
def firstEncounter (acc : List String) : List String → List String
  | [] => acc
  | n :: ns => firstEncounter (if n ∈ acc then acc else acc ++ [n]) ns

/-- `rowsBefore marks k` is the cumulative row count in front of mark index
`k`: `marks[k-1].rows` when `k > 0`, else `0` — the `rows_begin` / `rows_end`
computation of `StorageLog::read`. -/
def rowsBefore (marks : List Mark) (k : Nat) : Nat :=
  if k > 0 then (marks.getD (k - 1) default).rows else 0

/-- `StorageLog::read`, scan-planning part (lines 562–588): clamp
`num_streams` to the number of marks, then emit one
`(mark_number, rows_limit)` pair per stream. -/
def readPlan (marks : List Mark) (num_streams0 : Nat) : List (Nat × Nat) :=
  let marks_size := marks.length
  let num_streams := if num_streams0 > marks_size then marks_size else num_streams0
  (List.range num_streams).map (fun stream =>
    let mark_begin := stream * marks_size / num_streams
    let mark_end := (stream + 1) * marks_size / num_streams
    (mark_begin, rowsBefore marks mark_end - rowsBefore marks mark_begin))

example : readPlan [⟨3, 0⟩, ⟨5, 7⟩] 2 = [(0, 3), (1, 2)] := by decide

instance {ε α : Type} [DecidableEq ε] [DecidableEq α] : DecidableEq (Except ε α) := fun a b =>
  match a, b with
  | .error e, .error f =>
    if h : e = f then .isTrue (by rw [h]) else .isFalse (by simp [h])
  | .ok x, .ok y =>
    if h : x = y then .isTrue (by rw [h]) else .isFalse (by simp [h])
  | .error _, .ok _ => .isFalse (by simp)
  | .ok _, .error _ => .isFalse (by simp)

example : construct [("a", .array .uint64), ("a.size0", .uint64)] = .error .duplicateColumn := by
  decide

lemma findFile_isSome_iff (fs : List FileEntry) (n : String) :
    (findFile fs n).isSome ↔ n ∈ fs.map (·.name) := by
  induction fs with
  | nil => simp [findFile]
  | cons fe fs ih =>
    simp only [findFile, List.map_cons, List.mem_cons]
    by_cases h : fe.name = n
    · simp [h]
    · rw [if_neg h]
      rw [show ((findFile fs n).map (fun p => (p.1 + 1, p.2))).isSome = (findFile fs n).isSome
        from by cases findFile fs n <;> rfl]
      rw [ih]
      constructor
      · exact Or.inr
      · rintro (h1 | h1)
        · exact absurd h1.symm h
        · exact h1

lemma findFile_append_isSome (fs gs : List FileEntry) (n : String)
    (h : (findFile fs n).isSome) : (findFile (fs ++ gs) n).isSome := by
  rw [findFile_isSome_iff] at h ⊢
  simp only [List.map_append, List.mem_append]
  exact Or.inl h

lemma registerStreams_extends (ns : List String) (fs : List FileEntry) :
    ∃ ext, registerStreams fs ns = fs ++ ext ∧ ∀ fe ∈ ext, fe.marks = [] := by
  induction ns generalizing fs with
  | nil => exact ⟨[], by simp [registerStreams], by simp⟩
  | cons n ns ih =>
    simp only [registerStreams, List.foldl_cons]
    by_cases h : (findFile fs n).isSome
    · rw [if_pos h]; exact ih fs
    · rw [if_neg h]
      obtain ⟨ext, he, hm⟩ := ih (fs ++ [⟨n, []⟩])
      refine ⟨⟨n, []⟩ :: ext, ?_, ?_⟩
      · rw [registerStreams] at he; rw [he, List.append_assoc]; rfl
      · intro fe hfe
        rcases List.mem_cons.mp hfe with h1 | h1
        · rw [h1]
        · exact hm fe h1

lemma registerStreams_isSome (ns : List String) (fs : List FileEntry) (n : String)
    (h : (findFile fs n).isSome) : (findFile (registerStreams fs ns) n).isSome := by
  obtain ⟨ext, he, -⟩ := registerStreams_extends ns fs
  rw [he]
  exact findFile_append_isSome fs ext n h

lemma registerStreams_mem_isSome (ns : List String) (fs : List FileEntry) (n : String)
    (h : n ∈ ns) : (findFile (registerStreams fs ns) n).isSome := by
  induction ns generalizing fs with
  | nil => cases h
  | cons m ns ih =>
    simp only [registerStreams, List.foldl_cons]
    rcases List.mem_cons.mp h with h1 | h1
    · subst h1
      by_cases hf : (findFile fs n).isSome
      · rw [if_pos hf]; exact registerStreams_isSome ns fs n hf
      · rw [if_neg hf]
        refine registerStreams_isSome ns _ n ?_
        rw [findFile_isSome_iff]
        simp
    · by_cases hf : (findFile fs m).isSome
      · rw [if_pos hf]; exact ih fs h1
      · rw [if_neg hf]; exact ih (fs ++ [⟨m, []⟩]) h1

lemma registerStreams_names (ns : List String) (fs : List FileEntry) :
    (registerStreams fs ns).map (·.name) = firstEncounter (fs.map (·.name)) ns := by
  induction ns generalizing fs with
  | nil => rfl
  | cons n ns ih =>
    simp only [registerStreams, List.foldl_cons, firstEncounter]
    by_cases h : (findFile fs n).isSome
    · rw [if_pos h, if_pos ((findFile_isSome_iff fs n).mp h)]
      exact ih fs
    · rw [if_neg h, if_neg (fun hm => h ((findFile_isSome_iff fs n).mpr hm))]
      have := ih (fs ++ [⟨n, []⟩])
      rw [registerStreams] at this
      rw [this]
      simp

lemma firstEncounter_append (l1 l2 : List String) (acc : List String) :
    firstEncounter (firstEncounter acc l1) l2 = firstEncounter acc (l1 ++ l2) := by
  induction l1 generalizing acc with
  | nil => rfl
  | cons n ns ih => simp only [firstEncounter, List.cons_append]; exact ih _

lemma name_mem_substreamNames (t : DataType) (n : String) (lvl : Nat) :
    n ∈ substreamNames t n lvl := by
  induction t generalizing lvl with
  | uint64 => simp [substreamNames]
  | str => simp [substreamNames]
  | array e ih => simp only [substreamNames, List.mem_cons]; exact Or.inr (ih _)
  | nullable e ih => simp only [substreamNames, List.mem_cons]; exact Or.inr (ih _)

lemma addAll_error_of_registered (cs : List (String × DataType)) (fs : List FileEntry)
    (h : ∃ c ∈ cs, (findFile fs c.1).isSome) :
    addAll cs fs = .error .duplicateColumn := by
  induction cs generalizing fs with
  | nil => obtain ⟨c, hc, -⟩ := h; cases hc
  | cons c' cs ih =>
    obtain ⟨c, hc, hreg⟩ := h
    rcases List.mem_cons.mp hc with h1 | h1
    · subst h1
      simp [addAll, addFiles, if_pos hreg]
    · by_cases hf : (findFile fs c'.1).isSome
      · simp [addAll, addFiles, if_pos hf]
      · simp only [addAll, addFiles, if_neg hf]
        exact ih _ ⟨c, h1, registerStreams_isSome _ fs c.1 hreg⟩

lemma addAll_error_of_dup (cs : List (String × DataType))
    (h : ¬ (cs.map (·.1)).Nodup) (fs : List FileEntry) :
    addAll cs fs = .error .duplicateColumn := by
  induction cs generalizing fs with
  | nil => exact absurd List.nodup_nil h
  | cons c cs ih =>
    by_cases hf : (findFile fs c.1).isSome
    · simp [addAll, addFiles, if_pos hf]
    · simp only [addAll, addFiles, if_neg hf]
      by_cases hmem : c.1 ∈ cs.map (·.1)
      · obtain ⟨c', hc', hname⟩ := List.mem_map.mp hmem
        refine addAll_error_of_registered cs _ ⟨c', hc', ?_⟩
        rw [hname]
        exact registerStreams_mem_isSome _ fs c.1 (name_mem_substreamNames c.2 c.1 0)
      · refine ih (fun hn => h ?_) _
        simp only [List.map_cons, List.nodup_cons]
        exact ⟨hmem, hn⟩

lemma addAll_ok (cs : List (String × DataType)) (fs fs' : List FileEntry)
    (h : addAll cs fs = .ok fs') :
    fs'.map (·.name) =
      firstEncounter (fs.map (·.name)) (cs.flatMap fun c => substreamNames c.2 c.1 0) ∧
    ∀ fe ∈ fs', fe ∈ fs ∨ fe.marks = [] := by
  induction cs generalizing fs with
  | nil =>
    simp only [addAll, Except.ok.injEq] at h
    subst h
    exact ⟨rfl, fun fe hfe => Or.inl hfe⟩
  | cons c cs ih =>
    by_cases hf : (findFile fs c.1).isSome
    · simp [addAll, addFiles, if_pos hf] at h
    · simp only [addAll, addFiles, if_neg hf] at h
      obtain ⟨hn, hm⟩ := ih _ h
      constructor
      · rw [hn, registerStreams_names]
        rw [firstEncounter_append]
        simp
      · intro fe hfe
        rcases hm fe hfe with h1 | h1
        · obtain ⟨ext, he, hext⟩ := registerStreams_extends (substreamNames c.2 c.1 0) fs
          rw [he] at h1
          rcases List.mem_append.mp h1 with h2 | h2
          · exact Or.inl h2
          · exact Or.inr (hext fe h2)
        · exact Or.inr h1

/-- C9.  Descriptor construction fails with `EmptyColumns` on an empty column
list; fails with `DuplicateColumn` when a column name recurs in the column
list; and on success the file list holds exactly the substreams of all
columns, each new substream appended at the next `column_index` in
first-encounter order (list position = index), with an empty mark vector. -/
theorem claim9_construct (cols : List (String × DataType)) :
    (cols = [] → construct cols = .error .emptyColumns) ∧
    (¬ (cols.map (·.1)).Nodup → construct cols = .error .duplicateColumn) ∧
    (∀ fs, construct cols = .ok fs →
      fs.map (·.name) = firstEncounter [] (cols.flatMap fun c => substreamNames c.2 c.1 0) ∧
      ∀ fe ∈ fs, fe.marks = []) := by
  refine ⟨fun h => by simp [construct, h], fun h => ?_, fun fs h => ?_⟩
  · have hne : cols ≠ [] := by rintro rfl; exact h List.nodup_nil
    rw [construct, if_neg hne]
    exact addAll_error_of_dup cols h []
  · by_cases hne : cols = []
    · simp [construct, hne] at h
    · rw [construct, if_neg hne] at h
      obtain ⟨hn, hm⟩ := addAll_ok cols [] fs h
      refine ⟨by simpa using hn, fun fe hfe => ?_⟩
      rcases hm fe hfe with h1 | h1
      · cases h1
      · exact h1

/-- Witness for C9 on a concrete table: the empty list, a duplicated column
name, and a successful two-column construction. -/
theorem claim9_witness :
    construct [] = .error .emptyColumns ∧
    construct [("a", .uint64), ("a", .str)] = .error .duplicateColumn ∧
    construct [("a", .uint64), ("arr", .array .uint64)] =
      .ok [⟨"a", []⟩, ⟨"arr.size0", []⟩, ⟨"arr", []⟩] := by
  refine ⟨(claim9_construct []).1 rfl, (claim9_construct _).2.1 (by decide), ?_⟩
  decide

/-- C10.  `addFiles` raises `DuplicateColumn` whenever the new column's name
is already registered as a substream file name — even when all column names
are pairwise distinct.  Concretely, a column named `a.size0` declared after
an array column named `a` is rejected although the two column names differ. -/
theorem claim10_duplicate_from_substream :
    (∀ (fs : List FileEntry) (cname : String) (t : DataType),
      (findFile fs cname).isSome → addFiles fs cname t = .error .duplicateColumn) ∧
    (construct [("a", .array .uint64), ("a.size0", .uint64)] = .error .duplicateColumn ∧
      ("a" : String) ≠ "a.size0") := by
  refine ⟨fun fs cname t h => by simp [addFiles, if_pos h], by decide, by decide⟩

/-- Witness for C10: the general part applied at a concrete registered
substream name. -/
theorem claim10_witness :
    addFiles [⟨"a.size0", []⟩, ⟨"a", []⟩] "a.size0" .uint64 = .error .duplicateColumn := by
  exact (claim10_duplicate_from_substream).1 _ _ _ (by decide)

/-- C2.  The scan planner first clamps `num_streams` to
`min(num_streams, M)` and then creates one reader per stream, with
`mark_begin = stream · M / num_streams` and
`rows_limit = rows_end − rows_begin`, where
`rows_begin = marks[mark_begin − 1].rows` if `mark_begin > 0` else `0`, and
`rows_end = marks[mark_end − 1].rows` if `mark_end > 0` else `0`, for
`mark_end = (stream + 1) · M / num_streams` (integer division). -/
theorem claim2_read_plan (marks : List Mark) (ns0 : Nat) :
    (readPlan marks ns0).length = min ns0 marks.length ∧
    ∀ s, s < min ns0 marks.length →
      (readPlan marks ns0)[s]? =
        some (s * marks.length / min ns0 marks.length,
          (if (s + 1) * marks.length / min ns0 marks.length > 0
            then (marks.getD ((s + 1) * marks.length / min ns0 marks.length - 1) default).rows
            else 0) -
          (if s * marks.length / min ns0 marks.length > 0
            then (marks.getD (s * marks.length / min ns0 marks.length - 1) default).rows
            else 0)) := by
  have hclamp : (if ns0 > marks.length then marks.length else ns0) = min ns0 marks.length := by
    rcases Nat.lt_or_ge marks.length ns0 with h | h
    · rw [if_pos h, Nat.min_eq_right (Nat.le_of_lt h)]
    · rw [if_neg (Nat.not_lt.mpr h), Nat.min_eq_left h]
  constructor
  · simp [readPlan, hclamp]
  · intro s hs
    simp only [readPlan, hclamp, rowsBefore]
    rw [List.getElem?_map, List.getElem?_range hs]
    rfl

lemma exists_slice (f : Nat → Nat) (n i : Nat) (h0 : f 0 ≤ i) (hn : i < f n) :
    ∃ s, s < n ∧ f s ≤ i ∧ i < f (s + 1) := by
  induction n with
  | zero => exact absurd hn (Nat.not_lt.mpr h0)
  | succ n ih =>
    by_cases h : f n ≤ i
    · exact ⟨n, Nat.lt_succ_self n, h, hn⟩
    · obtain ⟨s, hs, ha, hb⟩ := ih (Nat.lt_of_not_le h)
      exact ⟨s, Nat.lt_succ_of_lt hs, ha, hb⟩

lemma step_mono (g : Nat → Nat) (n : Nat) (hg : ∀ s, s < n → g s ≤ g (s + 1)) :
    ∀ a b, a ≤ b → b ≤ n → g a ≤ g b := by
  intro a b hab hbn
  induction hab with
  | refl => exact Nat.le_refl _
  | @step m h ih =>
    exact Nat.le_trans (ih (Nat.le_trans (Nat.le_succ m) hbn))
      (hg m (Nat.lt_of_lt_of_le (Nat.lt_succ_self m) hbn))

lemma sum_range_sub (g : Nat → Nat) (n : Nat) (hg : ∀ s, s < n → g s ≤ g (s + 1)) :
    ((List.range n).map (fun s => g (s + 1) - g s)).sum = g n - g 0 := by
  induction n with
  | zero => simp
  | succ n ih =>
    rw [List.range_succ, List.map_append, List.sum_append]
    simp only [List.map_cons, List.map_nil, List.sum_cons, List.sum_nil]
    rw [ih (fun s hs => hg s (Nat.lt_succ_of_lt hs))]
    have h1 : g 0 ≤ g n :=
      step_mono g (n + 1) hg 0 n (Nat.zero_le n) (Nat.le_succ n)
    have h2 : g n ≤ g (n + 1) := hg n (Nat.lt_succ_self n)
    omega

lemma rowsBefore_mono (marks : List Mark)
    (hmono : ∀ j, j < marks.length → ∀ i, i ≤ j →
      (marks.getD i default).rows ≤ (marks.getD j default).rows)
    (a b : Nat) (hab : a ≤ b) (hb : b ≤ marks.length) :
    rowsBefore marks a ≤ rowsBefore marks b := by
  unfold rowsBefore
  rcases Nat.eq_zero_or_pos a with ha | ha
  · subst ha
    simp
  · rw [if_pos ha, if_pos (Nat.lt_of_lt_of_le ha hab)]
    exact hmono (b - 1) (by omega) (a - 1) (by omega)

/-- C3.  For a table whose `rows` values are non-decreasing and any
`num_streams ∈ [1, M]`, the planner's slices cover every mark index in
`[0, M)` exactly once, the planned `rows_limit`s sum to the table's total row
count `marks[M−1].rows`, and every slice's `rows_limit` is the row count
between its two mark boundaries (mark-aligned slices). -/
theorem claim3_partition (marks : List Mark)
    (hmono : ∀ j, j < marks.length → ∀ i, i ≤ j →
      (marks.getD i default).rows ≤ (marks.getD j default).rows)
    (ns : Nat) (h1 : 1 ≤ ns) (h2 : ns ≤ marks.length) :
    (∀ i, i < marks.length →
      ∃! s, s < ns ∧ s * marks.length / ns ≤ i ∧ i < (s + 1) * marks.length / ns) ∧
    ((readPlan marks ns).map (·.2)).sum = (marks.getD (marks.length - 1) default).rows ∧
    (∀ s, s < ns → (readPlan marks ns)[s]? =
      some (s * marks.length / ns,
        rowsBefore marks ((s + 1) * marks.length / ns) -
          rowsBefore marks (s * marks.length / ns))) := by
  have hns0 : 0 < ns := h1
  have hM0 : 0 < marks.length := Nat.lt_of_lt_of_le hns0 h2
  have hclamp : (if ns > marks.length then marks.length else ns) = ns :=
    if_neg (Nat.not_lt.mpr h2)
  have hmb_mono : ∀ a b, a ≤ b → a * marks.length / ns ≤ b * marks.length / ns :=
    fun a b hab => Nat.div_le_div_right (Nat.mul_le_mul_right marks.length hab)
  have hmb_top : ns * marks.length / ns = marks.length :=
    Nat.mul_div_cancel_left marks.length hns0
  have hmb_le : ∀ s, s ≤ ns → s * marks.length / ns ≤ marks.length := by
    intro s hs
    calc s * marks.length / ns ≤ ns * marks.length / ns := hmb_mono s ns hs
    _ = marks.length := hmb_top
  refine ⟨fun i hi => ?_, ?_, fun s hs => ?_⟩
  · obtain ⟨s, hs, ha, hb⟩ :=
      exists_slice (fun s => s * marks.length / ns) ns i (by simp)
        (by show i < ns * marks.length / ns; rwa [hmb_top])
    refine ⟨s, ⟨hs, ha, hb⟩, ?_⟩
    rintro t ⟨ht, hta, htb⟩
    by_contra hne
    rcases Nat.lt_or_ge t s with hlt | hge
    · have : (t + 1) * marks.length / ns ≤ s * marks.length / ns := hmb_mono _ _ hlt
      omega
    · have hlt : s < t := Nat.lt_of_le_of_ne hge (fun e => hne e.symm)
      have : (s + 1) * marks.length / ns ≤ t * marks.length / ns := hmb_mono _ _ hlt
      omega
  · have hstep : ∀ s, s < ns →
        rowsBefore marks (s * marks.length / ns) ≤
          rowsBefore marks ((s + 1) * marks.length / ns) := by
      intro s hs
      exact rowsBefore_mono marks hmono _ _ (hmb_mono s (s + 1) (Nat.le_succ s))
        (hmb_le (s + 1) hs)
    have := sum_range_sub (fun s => rowsBefore marks (s * marks.length / ns)) ns hstep
    simp only [readPlan, hclamp, List.map_map]
    have hcomp :
        ((·.2) ∘ fun stream => (stream * marks.length / ns,
          rowsBefore marks ((stream + 1) * marks.length / ns) -
            rowsBefore marks (stream * marks.length / ns))) =
        fun s => rowsBefore marks ((s + 1) * marks.length / ns) -
          rowsBefore marks (s * marks.length / ns) := rfl
    rw [hcomp, this]
    simp only [Nat.zero_mul, Nat.zero_div, hmb_top]
    rw [rowsBefore, if_pos hM0, rowsBefore]
    simp
  · simp only [readPlan, hclamp]
    rw [List.getElem?_map, List.getElem?_range hs]
    rfl

/-- Witness for C3 on a three-mark table split two ways: mark index 1 lies in
exactly one slice, and the two planned limits sum to the total row count. -/
theorem claim3_witness :
    ((readPlan [⟨2, 0⟩, ⟨5, 3⟩, ⟨7, 9⟩] 2).map (·.2)).sum = 7 ∧
    (∃! s, s < 2 ∧ s * 3 / 2 ≤ 1 ∧ 1 < (s + 1) * 3 / 2) := by
  have h := claim3_partition [⟨2, 0⟩, ⟨5, 3⟩, ⟨7, 9⟩] (by decide) 2 (by decide) (by decide)
  exact ⟨by simpa using h.2.1, by simpa using h.1 1 (by decide)⟩

/-- Witness for C2 at a concrete two-mark table split two ways. -/
theorem claim2_witness :
    (readPlan [⟨3, 0⟩, ⟨5, 7⟩] 2).length = 2 ∧
    (readPlan [⟨3, 0⟩, ⟨5, 7⟩] 2)[1]? = some (1, 2) := by
  refine ⟨(claim2_read_plan [⟨3, 0⟩, ⟨5, 7⟩] 2).1, ?_⟩
  have := (claim2_read_plan [⟨3, 0⟩, ⟨5, 7⟩] 2).2 1 (by decide)
  simpa using this

/-- Little-endian encoding of an unsigned 64-bit integer (`writeIntBinary`
on a `size_t` field): eight bytes, least significant first; values truncate
modulo `2^64` exactly as the machine write would. -/
def encodeU64LE (n : Nat) : List Nat :=
  (List.range 8).map (fun i => n / 256 ^ i % 256)

/-- Little-endian decoding of the first eight bytes (`readIntBinary`). -/
def decodeU64LE (bytes : List Nat) : Nat :=
  ((List.range 8).map (fun i => bytes.getD i 0 * 256 ^ i)).sum

/-- The mark record decoded at record position `p` of the marks file: eight
`rows` bytes at byte `16·p`, eight `offset` bytes at byte `16·p + 8`. -/
def markAt (bytes : List Nat) (p : Nat) : Mark :=
  ⟨decodeU64LE (bytes.drop (16 * p)), decodeU64LE (bytes.drop (16 * p + 8))⟩

/-- The table state the claims touch: the registered substream files with
their in-memory mark vectors (list position = `column_index`), the marks
file's bytes (`none` = the file does not exist), and the `loaded_marks`
flag. -/
structure Storage where
  files : List FileEntry
  marksBytes : Option (List Nat)
  loaded_marks : Bool
deriving Repr, DecidableEq

/-- One record-group read of the `loadMarks` loop body: for each entry of
`files_by_index` in index order, read a `(rows, offset)` record from the
next 16 bytes and push it onto that substream's vector (the sequential
`readIntBinary` calls). -/
def appendGroup : List FileEntry → List Nat → List FileEntry
  | [], _ => []
  | fe :: fs, bytes =>
    ⟨fe.name, fe.marks ++ [⟨decodeU64LE bytes, decodeU64LE (bytes.drop 8)⟩]⟩ ::
      appendGroup fs (bytes.drop 16)

/-- The `while (!marks_rb.eof())` loop of `StorageLog::loadMarks`: one
record-group per iteration until the buffer is exhausted.  `fuel` bounds the
recursion; `loadMarks` passes the byte count, which the divisibility check
makes sufficient. -/
def loadLoop : Nat → List Nat → List FileEntry → List FileEntry
  | 0, _, fs => fs
  | fuel + 1, bytes, fs =>
    if bytes.isEmpty then fs
    else loadLoop fuel (bytes.drop (fs.length * 16)) (appendGroup fs bytes)

/-- `StorageLog::loadMarks`: a no-op when `loaded_marks` is already set; an
absent marks file leaves the vectors untouched; a file size that is not a
multiple of `file_count * sizeof(Mark)` (16 bytes per record) raises the
inconsistency error; otherwise the loop transposes the file into the
per-substream mark vectors. -/
def loadMarks (st : Storage) : Except Err Storage :=
  if st.loaded_marks then .ok st
  else
    match st.marksBytes with
    | none => .ok { st with loaded_marks := true }
    | some bytes =>
      if bytes.length % (st.files.length * 16) ≠ 0 then
        .error .inconsistentMarksFile
      else
        .ok { st with loaded_marks := true,
                      files := loadLoop bytes.length bytes st.files }

/-- `storage.files[storage.column_names[column_index]].marks.push_back(...)`:
append a mark to the vector of the substream at `column_index`. -/
def pushMark (fs : List FileEntry) (idx : Nat) (m : Mark) : List FileEntry :=
  match fs[idx]? with
  | none => fs
  | some fe => fs.set idx ⟨fe.name, fe.marks ++ [m]⟩

/-- `LogBlockOutputStream::writeMarks`: verify the mark count against
`file_count`, sort by `column_index`, append each record to the marks file
in fixed-width little-endian binary, and push each mark onto its
substream's in-memory vector. -/
def writeMarks (marks : List (Nat × Mark)) (st : Storage) : Except Err Storage :=
  if marks.length ≠ st.files.length then .error .logicalError
  else
    let sorted := List.insertionSort (fun a b => a.1 ≤ b.1) marks
    .ok { st with
      marksBytes := some (st.marksBytes.getD [] ++
        sorted.flatMap (fun p => encodeU64LE p.2.rows ++ encodeU64LE p.2.offset)),
      files := sorted.foldl (fun fs p => pushMark fs p.1 p.2) st.files }

lemma appendGroup_length (fs : List FileEntry) (bytes : List Nat) :
    (appendGroup fs bytes).length = fs.length := by
  induction fs generalizing bytes with
  | nil => rfl
  | cons fe fs ih => simp [appendGroup, ih]

lemma appendGroup_getElem (fs : List FileEntry) (bytes : List Nat) (i : Nat) :
    (appendGroup fs bytes)[i]? = (fs[i]?).map (fun fe =>
      ⟨fe.name, fe.marks ++
        [⟨decodeU64LE (bytes.drop (16 * i)), decodeU64LE (bytes.drop (16 * i + 8))⟩]⟩) := by
  induction fs generalizing bytes i with
  | nil => simp [appendGroup]
  | cons fe fs ih =>
    cases i with
    | zero => simp [appendGroup]
    | succ i =>
      simp only [appendGroup, List.getElem?_cons_succ, ih]
      rw [List.drop_drop, List.drop_drop]
      have e1 : 16 + 16 * i = 16 * (i + 1) := by omega
      have e2 : 16 + (16 * i + 8) = 16 * (i + 1) + 8 := by omega
      rw [e1, e2]

lemma loadLoop_length (fuel : Nat) (bytes : List Nat) (fs : List FileEntry) :
    (loadLoop fuel bytes fs).length = fs.length := by
  induction fuel generalizing bytes fs with
  | zero => rfl
  | succ fuel ih =>
    simp only [loadLoop]
    by_cases h : bytes.isEmpty
    · rw [if_pos h]
    · rw [if_neg h, ih, appendGroup_length]

lemma loadLoop_spec (fc : Nat) (hfc : 1 ≤ fc) :
    ∀ (g : Nat) (bytes : List Nat) (fs : List FileEntry) (fuel : Nat),
      fs.length = fc → bytes.length = g * (fc * 16) → g ≤ fuel →
      ∀ i : Nat, (loadLoop fuel bytes fs)[i]? = (fs[i]?).map (fun fe =>
        (⟨fe.name, fe.marks ++ (List.range g).map (fun k => markAt bytes (k * fc + i))⟩ :
          FileEntry)) := by
  intro g
  induction g with
  | zero =>
    intro bytes fs fuel hlen hbytes hfuel i
    have hb : bytes = [] := List.length_eq_zero.mp (by simpa using hbytes)
    subst hb
    have : loadLoop fuel [] fs = fs := by
      cases fuel with
      | zero => rfl
      | succ fuel => simp [loadLoop]
    rw [this]
    cases fs[i]? <;> simp
  | succ g ih =>
    intro bytes fs fuel hlen hbytes hfuel i
    have hpos : 0 < bytes.length := by
      rw [hbytes]
      have : 0 < fc * 16 := by omega
      exact Nat.mul_pos (Nat.succ_pos g) this
    have hne : ¬ bytes.isEmpty := by
      cases bytes with
      | nil => simp at hpos
      | cons b bs => simp
    obtain ⟨fuel', rfl⟩ : ∃ f, fuel = f + 1 := ⟨fuel - 1, by omega⟩
    simp only [loadLoop, if_neg hne]
    have hlen' : (appendGroup fs bytes).length = fc := by rw [appendGroup_length, hlen]
    have hbytes' : (bytes.drop (fs.length * 16)).length = g * (fc * 16) := by
      rw [List.length_drop, hlen, hbytes]
      ring_nf
      omega
    rw [ih (bytes.drop (fs.length * 16)) (appendGroup fs bytes) fuel' hlen' hbytes'
      (by omega) i]
    rw [appendGroup_getElem]
    cases hfs : fs[i]? with
    | none => rfl
    | some fe =>
      simp only [Option.map_some', Option.some.injEq]
      have hdrop : ∀ p : Nat, markAt (bytes.drop (fs.length * 16)) p =
          markAt bytes (p + fc) := by
        intro p
        simp only [markAt, List.drop_drop, hlen]
        have e1 : fc * 16 + 16 * p = 16 * (p + fc) := by ring
        have e2 : fc * 16 + (16 * p + 8) = 16 * (p + fc) + 8 := by ring
        rw [e1, e2]
      have hmarks :
          ([(⟨decodeU64LE (bytes.drop (16 * i)), decodeU64LE (bytes.drop (16 * i + 8))⟩ :
              Mark)] ++
            (List.range g).map (fun k => markAt (bytes.drop (fs.length * 16)) (k * fc + i))) =
          (List.range (g + 1)).map (fun k => markAt bytes (k * fc + i)) := by
        rw [List.range_succ_eq_map, List.map_cons, List.map_map, List.singleton_append]
        refine congrArg₂ List.cons ?_ ?_
        · show _ = markAt bytes (0 * fc + i)
          simp [markAt]
        · refine List.map_congr_left (fun k _ => ?_)
          show markAt (List.drop (fs.length * 16) bytes) (k * fc + i) =
            markAt bytes ((k + 1) * fc + i)
          rw [hdrop]
          have e3 : k * fc + i + fc = (k + 1) * fc + i := by ring
          rw [e3]
      rw [List.append_assoc, hmarks]

/-- C5.  `loadMarks` is idempotent (a second call returns the state
unchanged); an absent marks file leaves every mark vector untouched and the
table usable; a file whose size is not a multiple of
`file_count · sizeof(Mark)` (16 bytes per record) fails with
`InconsistentMarksFile`; otherwise each substream's vector receives
`file_size / (file_count · 16)` marks, record `k` of the substream at
`column_index` `i` decoded from record position `k · file_count + i`. -/
theorem claim5_loadMarks (st : Storage) :
    (∀ st', loadMarks st = .ok st' → loadMarks st' = .ok st') ∧
    (st.loaded_marks = false → st.marksBytes = none →
      loadMarks st = .ok { st with loaded_marks := true }) ∧
    (∀ bytes, st.loaded_marks = false → st.marksBytes = some bytes →
      (bytes.length % (st.files.length * 16) ≠ 0 →
        loadMarks st = .error .inconsistentMarksFile) ∧
      (bytes.length % (st.files.length * 16) = 0 → 1 ≤ st.files.length →
        ∃ st', loadMarks st = .ok st' ∧
          st'.loaded_marks = true ∧
          st'.marksBytes = st.marksBytes ∧
          st'.files.length = st.files.length ∧
          ∀ i : Nat, st'.files[i]? = (st.files[i]?).map (fun fe =>
            (⟨fe.name, fe.marks ++
              (List.range (bytes.length / (st.files.length * 16))).map
                (fun k => markAt bytes (k * st.files.length + i))⟩ : FileEntry)))) := by
  refine ⟨fun st' h => ?_, fun h1 h2 => ?_, fun bytes h1 h2 => ⟨fun h3 => ?_, fun h3 h4 => ?_⟩⟩
  · have hl : st'.loaded_marks = true := by
      unfold loadMarks at h
      split at h
      next hld => cases h; assumption
      next hld =>
        split at h
        next => cases h; rfl
        next bytes =>
          split at h
          next => cases h
          next => cases h; rfl
    rw [loadMarks, if_pos hl]
  · simp [loadMarks, h1, h2]
  · simp [loadMarks, h1, h2, h3]
  · refine ⟨⟨loadLoop bytes.length bytes st.files, st.marksBytes, true⟩, ?_, rfl, rfl, ?_, ?_⟩
    · simp [loadMarks, h1, h2, h3]
    · exact loadLoop_length bytes.length bytes st.files
    · intro i
      have hdiv : bytes.length =
          (bytes.length / (st.files.length * 16)) * (st.files.length * 16) :=
        (Nat.div_mul_cancel (Nat.dvd_of_mod_eq_zero h3)).symm
      exact loadLoop_spec st.files.length h4 _ bytes st.files bytes.length rfl hdiv
        (Nat.div_le_self _ _) i

/-- Witness for C5: a one-substream table whose 32-byte marks file decodes to
two marks, plus the inconsistent 15-byte file and the absent file. -/
theorem claim5_witness :
    (loadMarks ⟨[⟨"a", []⟩], some (List.replicate 15 0), false⟩ =
      .error .inconsistentMarksFile) ∧
    (loadMarks ⟨[⟨"a", []⟩], none, false⟩ = .ok ⟨[⟨"a", []⟩], none, true⟩) ∧
    (∃ st', loadMarks ⟨[⟨"a", []⟩],
        some (encodeU64LE 3 ++ encodeU64LE 0 ++ encodeU64LE 5 ++ encodeU64LE 40), false⟩ =
        .ok st' ∧ st'.loaded_marks = true ∧
        st'.marksBytes = some (encodeU64LE 3 ++ encodeU64LE 0 ++ encodeU64LE 5 ++ encodeU64LE 40) ∧
        st'.files.length = 1 ∧
        ∀ i : Nat, st'.files[i]? = ([⟨"a", []⟩] : List FileEntry)[i]?.map (fun fe =>
          (⟨fe.name, fe.marks ++ (List.range 2).map (fun k => markAt
            (encodeU64LE 3 ++ encodeU64LE 0 ++ encodeU64LE 5 ++ encodeU64LE 40)
            (k * 1 + i))⟩ : FileEntry))) := by
  refine ⟨?_, ?_, ?_⟩
  · exact ((claim5_loadMarks _).2.2 _ rfl rfl).1 (by decide)
  · exact (claim5_loadMarks _).2.1 rfl rfl
  · exact ((claim5_loadMarks _).2.2 _ rfl rfl).2 (by decide) (by decide)

instance : IsTotal (Nat × Mark) (fun a b => a.1 ≤ b.1) :=
  ⟨fun a b => Nat.le_total a.1 b.1⟩

instance : IsTrans (Nat × Mark) (fun a b => a.1 ≤ b.1) :=
  ⟨fun _ _ _ => Nat.le_trans⟩

lemma foldl_pushMark (l : List (Nat × Mark)) (fs : List FileEntry) (i : Nat) :
    (l.foldl (fun fs p => pushMark fs p.1 p.2) fs)[i]? =
      (fs[i]?).map (fun fe =>
        (⟨fe.name, fe.marks ++ (l.filter (fun p => p.1 == i)).map (·.2)⟩ : FileEntry)) := by
  induction l generalizing fs with
  | nil =>
    simp only [List.foldl_nil, List.filter_nil, List.map_nil, List.append_nil]
    cases fs[i]? <;> rfl
  | cons p l ih =>
    rw [List.foldl_cons, ih]
    by_cases hpi : p.1 = i
    · subst hpi
      cases hfs : fs[p.1]? with
      | none =>
        have hid : pushMark fs p.1 p.2 = fs := by simp only [pushMark, hfs]
        rw [hid, hfs]
        rfl
      | some fe =>
        have hlt : p.1 < fs.length := by
          by_contra hge
          rw [List.getElem?_eq_none (Nat.le_of_not_lt hge)] at hfs
          cases hfs
        have hset : (pushMark fs p.1 p.2)[p.1]? = some ⟨fe.name, fe.marks ++ [p.2]⟩ := by
          simp only [pushMark, hfs]
          exact List.getElem?_set_eq_of_lt _ hlt
        rw [hset]
        simp [List.filter_cons]
    · have hkeep : (pushMark fs p.1 p.2)[i]? = fs[i]? := by
        simp only [pushMark]
        cases hfs : fs[p.1]? with
        | none => rfl
        | some fe => exact List.getElem?_set_ne hpi
      rw [hkeep]
      have hfilter : (p :: l).filter (fun q => q.1 == i) = l.filter (fun q => q.1 == i) := by
        simp [List.filter_cons, hpi]
      rw [hfilter]

/-- C6.  `writeMarks(marks)` fails with `LogicalError` exactly when
`len(marks) ≠ file_count`; otherwise it sorts the marks by `column_index`
ascending (the result is an ascending permutation of the input), appends
each `(rows, offset)` pair as two fixed-width little-endian 64-bit integers
to the marks file in that order, and appends each mark to the in-memory
vector of the substream at its `column_index`. -/
theorem claim6_writeMarks (marks : List (Nat × Mark)) (st : Storage) :
    (writeMarks marks st = .error .logicalError ↔ marks.length ≠ st.files.length) ∧
    (marks.length = st.files.length →
      ∃ st', writeMarks marks st = .ok st' ∧
        (List.insertionSort (fun a b => a.1 ≤ b.1) marks).Pairwise (fun a b => a.1 ≤ b.1) ∧
        List.Perm (List.insertionSort (fun a b => a.1 ≤ b.1) marks) marks ∧
        st'.marksBytes = some (st.marksBytes.getD [] ++
          (List.insertionSort (fun a b => a.1 ≤ b.1) marks).flatMap
            (fun p => encodeU64LE p.2.rows ++ encodeU64LE p.2.offset)) ∧
        ∀ i : Nat, st'.files[i]? = (st.files[i]?).map (fun fe =>
          (⟨fe.name, fe.marks ++
            ((List.insertionSort (fun a b => a.1 ≤ b.1) marks).filter
              (fun p => p.1 == i)).map (·.2)⟩ : FileEntry))) := by
  constructor
  · constructor
    · intro h hlen
      rw [writeMarks, if_neg (not_not_intro hlen)] at h
      cases h
    · intro hlen
      rw [writeMarks, if_pos hlen]
  · intro hlen
    have hne : ¬ marks.length ≠ st.files.length := not_not_intro hlen
    refine ⟨⟨(List.insertionSort (fun a b => a.1 ≤ b.1) marks).foldl
        (fun fs p => pushMark fs p.1 p.2) st.files,
      some (st.marksBytes.getD [] ++
        (List.insertionSort (fun a b => a.1 ≤ b.1) marks).flatMap
          (fun p => encodeU64LE p.2.rows ++ encodeU64LE p.2.offset)),
      st.loaded_marks⟩, ?_, List.sorted_insertionSort _ marks, List.perm_insertionSort _ marks,
      rfl, fun i => foldl_pushMark _ st.files i⟩
    rw [writeMarks, if_neg hne]

/-- Witness for C6: a two-substream table receiving an unsorted mark pair,
and a wrong-count failure. -/
theorem claim6_witness :
    (writeMarks [(0, ⟨1, 2⟩)] ⟨[⟨"a", []⟩, ⟨"b", []⟩], none, true⟩ = .error .logicalError) ∧
    (∃ st', writeMarks [(1, ⟨7, 9⟩), (0, ⟨7, 0⟩)] ⟨[⟨"a", []⟩, ⟨"b", []⟩], none, true⟩ =
        .ok st' ∧
      (List.insertionSort (fun a b => a.1 ≤ b.1) [((1 : Nat), (⟨7, 9⟩ : Mark)), (0, ⟨7, 0⟩)]).Pairwise
        (fun a b => a.1 ≤ b.1) ∧
      List.Perm (List.insertionSort (fun a b => a.1 ≤ b.1) [((1 : Nat), (⟨7, 9⟩ : Mark)), (0, ⟨7, 0⟩)])
        [(1, ⟨7, 9⟩), (0, ⟨7, 0⟩)] ∧
      st'.marksBytes = some ((Option.getD none [] : List Nat) ++
        (List.insertionSort (fun a b => a.1 ≤ b.1) [((1 : Nat), (⟨7, 9⟩ : Mark)), (0, ⟨7, 0⟩)]).flatMap
          (fun p => encodeU64LE p.2.rows ++ encodeU64LE p.2.offset)) ∧
      ∀ i : Nat, st'.files[i]? = (([⟨"a", []⟩, ⟨"b", []⟩] : List FileEntry)[i]?).map (fun fe =>
        (⟨fe.name, fe.marks ++
          ((List.insertionSort (fun a b => a.1 ≤ b.1) [((1 : Nat), (⟨7, 9⟩ : Mark)), (0, ⟨7, 0⟩)]).filter
            (fun p => p.1 == i)).map (·.2)⟩ : FileEntry))) := by
  refine ⟨?_, (claim6_writeMarks [(1, ⟨7, 9⟩), (0, ⟨7, 0⟩)] _).2 rfl⟩
  exact (claim6_writeMarks [(0, ⟨1, 2⟩)] _).1.mpr (by decide)

/-- State of one `LogBlockOutputStream::Stream`: `plain_offset` is the data
file size observed when the stream was opened (`Poco::File(...).getSize()` in
the `Stream` constructor), `plain_count` the number of bytes this writer has
pushed into the plain (file-append) buffer so far (`plain.count()`). -/
structure WStream where
  plain_offset : Nat
  plain_count : Nat
deriving Repr, DecidableEq

/-- Look a stream up in the writer's stream map. -/
def lookupStream : List (String × WStream) → String → Option WStream
  | [], _ => none
  | p :: ps, n => if p.1 = n then some p.2 else lookupStream ps n

/-- `streams.try_emplace(stream_name, data_file_path, max_compress_block_size)`:
open the stream if absent.  A freshly opened stream records the data file's
current size (`dsz` is the file-system size oracle) and has written
nothing. -/
def openStream (dsz : String → Nat) (ss : List (String × WStream)) (n : String) :
    List (String × WStream) :=
  match lookupStream ss n with
  | some _ => ss
  | none => ss ++ [(n, ⟨dsz n, 0⟩)]

/-- `it->second.compressed.next()` at the end of a column: the compressed
frame of this block is flushed into the plain buffer, growing
`plain.count()` by the frame's byte size `k`. -/
def bumpStream : List (String × WStream) → String → Nat → List (String × WStream)
  | [], _, _ => []
  | p :: ps, n, k =>
    if p.1 = n then (p.1, ⟨p.2.plain_offset, p.2.plain_count + k⟩) :: ps
    else p :: bumpStream ps n k

/-- The per-block mutable state of `LogBlockOutputStream::write`: the open
streams, the block-local `written_streams` set, and the accumulated
`out_marks` list. -/
structure WState where
  streams : List (String × WStream)
  written : List String
  outMarks : List (Nat × Mark)
deriving Repr, DecidableEq

/-- `file.marks.empty() ? 0 : file.marks.back().rows`. -/
def lastRows (ms : List Mark) : Nat :=
  match ms.getLast? with
  | none => 0
  | some m => m.rows

/-- One iteration of the first `enumerateStreams` callback of
`LogBlockOutputStream::writeData` (mark emission): substreams already written
by an earlier column of this block are skipped; otherwise the stream is
opened if needed and the mark
`(file.column_index, (previous rows + column.size(), plain_offset + plain.count()))`
is emitted.  `storage.files[stream_name]` is modelled as a lookup: `write`
only reaches names registered by the constructor (it validates the block
first), so the C++ map's default-insertion is never exercised and an
unregistered name emits nothing here. -/
def preOne (fs : List FileEntry) (dsz : String → Nat) (nrows : Nat)
    (ws : WState) (sname : String) : WState :=
  if sname ∈ ws.written then ws
  else
    match findFile fs sname with
    | none => ws
    | some (idx, fe) =>
      let streams := openStream dsz ws.streams sname
      match lookupStream streams sname with
      | none => ws
      | some s =>
        ⟨streams, ws.written,
          ws.outMarks ++ [(idx, ⟨lastRows fe.marks + nrows, s.plain_offset + s.plain_count⟩)]⟩

/-- One iteration of the second `enumerateStreams` callback (flush): names
already in `written_streams` are skipped; otherwise the name enters
`written_streams` and `compressed.next()` flushes this block's frame — of
`fsz sname` bytes — into the plain buffer. -/
def postOne (fsz : String → Nat) (ws : WState) (sname : String) : WState :=
  if sname ∈ ws.written then ws
  else ⟨bumpStream ws.streams sname (fsz sname), sname :: ws.written, ws.outMarks⟩

/-- One column of a block: name, data type, and `column.size()`. -/
structure BCol where
  name : String
  type : DataType
  rows : Nat
deriving Repr, DecidableEq

/-- One block to write: its columns and the frame-size oracle `fsz` — how
many compressed bytes this block's serialization of each substream produces
when its buffer is flushed.  Serialization and compression are collaborator
code outside the source file; only the byte counts they push into the plain
buffers are observable to the marks machinery. -/
structure Block where
  cols : List BCol
  fsz : String → Nat

/-- `LogBlockOutputStream::writeData`: the mark-emission pre-phase, the
serialization (whose writes stay inside the compressed buffers and touch the
plain buffer only at flush), then the flush/`written_streams` post-phase. -/
def writeColumn (fs : List FileEntry) (dsz : String → Nat) (fsz : String → Nat)
    (c : BCol) (ws : WState) : WState :=
  let ns := substreamNames c.type c.name 0
  let ws1 := ns.foldl (preOne fs dsz c.rows) ws
  ns.foldl (postOne fsz) ws1

/-- The column loop of `LogBlockOutputStream::write`, starting from the
writer's open streams and an empty block-local written set / mark list. -/
def writeBlockState (dsz : String → Nat) (fs : List FileEntry)
    (streams0 : List (String × WStream)) (b : Block) : WState :=
  b.cols.foldl (fun ws c => writeColumn fs dsz b.fsz c ws) ⟨streams0, [], []⟩

/-- `LogBlockOutputStream::write`: run all columns, then `writeMarks`. -/
def writeBlock (dsz : String → Nat) (st : Storage) (streams0 : List (String × WStream))
    (b : Block) : Except Err (Storage × List (String × WStream)) :=
  let ws := writeBlockState dsz st.files streams0 b
  match writeMarks ws.outMarks st with
  | .error e => .error e
  | .ok st' => .ok (st', ws.streams)

/-- A sequence of `write(block)` calls on one writer. -/
def writeBlocks (dsz : String → Nat) :
    Storage → List (String × WStream) → List Block →
    Except Err (Storage × List (String × WStream))
  | st, streams, [] => .ok (st, streams)
  | st, streams, b :: bs =>
    match writeBlock dsz st streams b with
    | .error e => .error e
    | .ok (st', streams') => writeBlocks dsz st' streams' bs

/-- The offset a mark emitted for `sname` records, in terms of the writer
state at block start: for an already-open stream, the file size observed at
open plus the bytes this writer has pushed to its plain buffer; for a stream
first opened during this block, the data file's current size. -/
def baseOffset (dsz : String → Nat) (streams0 : List (String × WStream))
    (sname : String) : Nat :=
  match lookupStream streams0 sname with
  | some s => s.plain_offset + s.plain_count
  | none => dsz sname

/-- The `stream_getter` lambda of `LogBlockOutputStream::writeData`
(serialize phase): null for substreams in `written_streams` (written by an
earlier column of this block), the compressed buffer for open streams,
`LogicalError` otherwise.  It closes over `written_streams`, which the
serialize phase never mutates. -/
def outStreamGetter (written : List String) (streams : List (String × WStream))
    (sname : String) : Except Err (Option String) :=
  if sname ∈ written then .ok none
  else if (lookupStream streams sname).isSome then .ok (some sname)
  else .error .logicalError

/-- The resolver's responses to a sequence of substream requests during one
column's serialization: neither `written_streams` nor the stream map is
mutated between requests, so every request is answered by the same pure
function. -/
def getterResponses (written : List String) (streams : List (String × WStream))
    (reqs : List String) : List (Except Err (Option String)) :=
  reqs.map (outStreamGetter written streams)

/-- C8 counterexample.  Requesting the same not-yet-written substream name
twice during one column returns the compressed buffer both times — the
second response is not null, because `written_streams` is only updated after
serialization.  (Null is returned exactly for names written by an earlier
column of the same block.) -/
theorem claim8_counterexample :
    getterResponses [] [("a", ⟨0, 0⟩)] ["a", "a"] =
      [.ok (some "a"), .ok (some "a")] ∧
    ((Except.ok (some "a") : Except Err (Option String)) ≠ .ok none) := by
  exact ⟨rfl, by simp⟩

/-- C8 amended.  The resolver returns null exactly for names already in the
block's written set (those serialized by an earlier column of this block);
for a name not in the written set it returns the compressed buffer of the
open stream — on the first and on every subsequent request during this
column alike, since the written set is only updated after the column's
serialization finishes — and fails with `LogicalError` for names with no
stream. -/
theorem claim8_amended (written : List String) (streams : List (String × WStream))
    (sname : String) (reqs : List String) :
    (sname ∈ written → outStreamGetter written streams sname = .ok none) ∧
    (sname ∉ written → (lookupStream streams sname).isSome →
      outStreamGetter written streams sname = .ok (some sname)) ∧
    (sname ∉ written → lookupStream streams sname = none →
      outStreamGetter written streams sname = .error .logicalError) ∧
    (∀ k : Nat, (getterResponses written streams reqs)[k]? =
      (reqs[k]?).map (outStreamGetter written streams)) := by
  refine ⟨fun h => ?_, fun h hs => ?_, fun h hs => ?_, fun k => ?_⟩
  · rw [outStreamGetter, if_pos h]
  · rw [outStreamGetter, if_neg h, if_pos hs]
  · rw [outStreamGetter, if_neg h, if_neg (by rw [hs]; exact Bool.false_ne_true)]
  · exact List.getElem?_map _ _ _

/-- Witness for C8's amended claim at concrete inputs. -/
theorem claim8_witness :
    outStreamGetter ["b"] [("a", ⟨0, 0⟩)] "b" = .ok none ∧
    outStreamGetter ["b"] [("a", ⟨0, 0⟩)] "a" = .ok (some "a") ∧
    outStreamGetter ["b"] [("a", ⟨0, 0⟩)] "c" = .error .logicalError ∧
    (getterResponses ["b"] [("a", ⟨0, 0⟩)] ["a", "a"])[1]? =
      some (outStreamGetter ["b"] [("a", ⟨0, 0⟩)] "a") := by
  have h := claim8_amended ["b"] [("a", ⟨0, 0⟩)] "b" ["a", "a"]
  have h2 := claim8_amended ["b"] [("a", ⟨0, 0⟩)] "a" ["a", "a"]
  have h3 := claim8_amended ["b"] [("a", ⟨0, 0⟩)] "c" ["a", "a"]
  exact ⟨h.1 (by decide), h2.2.1 (by decide) (by decide), h3.2.2.1 (by decide) (by decide),
    by rw [h2.2.2.2 1]; rfl⟩

lemma findFile_some (fs : List FileEntry) (n : String) :
    ∀ (i : Nat) (fe : FileEntry), findFile fs n = some (i, fe) →
      fs[i]? = some fe ∧ fe.name = n := by
  induction fs with
  | nil => intro i fe h; cases h
  | cons hd fs ih =>
    intro i fe h
    by_cases hn : hd.name = n
    · rw [findFile, if_pos hn] at h
      simp only [Option.some.injEq, Prod.mk.injEq] at h
      obtain ⟨rfl, rfl⟩ := h
      exact ⟨List.getElem?_cons_zero, hn⟩
    · rw [findFile, if_neg hn] at h
      cases hf : findFile fs n with
      | none => rw [hf] at h; cases h
      | some p =>
        rw [hf] at h
        simp only [Option.map_some', Option.some.injEq, Prod.mk.injEq] at h
        obtain ⟨rfl, rfl⟩ := h
        obtain ⟨h1, h2⟩ := ih p.1 p.2 (by rw [hf])
        exact ⟨by simpa using h1, h2⟩

lemma lookupStream_append (ss ts : List (String × WStream)) (n : String) :
    lookupStream (ss ++ ts) n =
      match lookupStream ss n with
      | some s => some s
      | none => lookupStream ts n := by
  induction ss with
  | nil => rfl
  | cons p ps ih =>
    by_cases h : p.1 = n
    · simp [lookupStream, h]
    · simp only [List.cons_append, lookupStream, if_neg h]
      exact ih

lemma lookupStream_bump_ne (ss : List (String × WStream)) (m n : String) (k : Nat)
    (h : m ≠ n) : lookupStream (bumpStream ss m k) n = lookupStream ss n := by
  induction ss with
  | nil => rfl
  | cons p ps ih =>
    by_cases hp : p.1 = m
    · rw [bumpStream, if_pos hp]
      rw [lookupStream, lookupStream, if_neg (by rw [hp]; exact h), if_neg (by rw [hp]; exact h)]
    · rw [bumpStream, if_neg hp]
      by_cases hn : p.1 = n
      · rw [lookupStream, lookupStream, if_pos hn, if_pos hn]
      · rw [lookupStream, lookupStream, if_neg hn, if_neg hn, ih]

/-- Block invariant: a stream whose substream has not yet been written this
block is either untouched since block start, or freshly opened (on a
substream the writer had no stream for at block start). -/
def streamsInv (dsz : String → Nat) (streams0 : List (String × WStream))
    (written : List String) (streams : List (String × WStream)) : Prop :=
  ∀ sname, sname ∉ written →
    lookupStream streams sname = lookupStream streams0 sname ∨
    (lookupStream streams0 sname = none ∧
      lookupStream streams sname = some ⟨dsz sname, 0⟩)

lemma streamsInv_sum (dsz : String → Nat) (streams0 : List (String × WStream))
    (written : List String) (streams : List (String × WStream))
    (hinv : streamsInv dsz streams0 written streams)
    (sname : String) (hn : sname ∉ written) (s : WStream)
    (h : lookupStream streams sname = some s) :
    s.plain_offset + s.plain_count = baseOffset dsz streams0 sname := by
  rcases hinv sname hn with heq | ⟨h0, hs⟩
  · rw [heq] at h
    rw [baseOffset, h]
  · rw [hs] at h
    cases h
    rw [baseOffset, h0]
    rfl

/-- The marks one column's pre-phase emits: one `(column_index, mark)` per
registered substream name not yet in the block's written set, with the
offset taken from the block-start stream state. -/
def emitsFor (fs : List FileEntry) (base : String → Nat) (nrows : Nat)
    (written : List String) : List String → List (Nat × Mark)
  | [] => []
  | sname :: ns =>
    (if sname ∈ written then []
     else
       match findFile fs sname with
       | none => []
       | some (idx, fe) => [(idx, ⟨lastRows fe.marks + nrows, base sname⟩)]) ++
    emitsFor fs base nrows written ns

lemma preOne_spec (fs : List FileEntry) (dsz : String → Nat)
    (s0 : List (String × WStream)) (nr : Nat) (ws : WState) (m : String)
    (hinv : streamsInv dsz s0 ws.written ws.streams) :
    (preOne fs dsz nr ws m).written = ws.written ∧
    streamsInv dsz s0 ws.written (preOne fs dsz nr ws m).streams ∧
    (preOne fs dsz nr ws m).outMarks =
      ws.outMarks ++ emitsFor fs (baseOffset dsz s0) nr ws.written [m] := by
  by_cases hm : m ∈ ws.written
  · have hstep : preOne fs dsz nr ws m = ws := by rw [preOne, if_pos hm]
    rw [hstep]
    exact ⟨rfl, hinv, by simp [emitsFor, hm]⟩
  · cases hf : findFile fs m with
    | none =>
      have hstep : preOne fs dsz nr ws m = ws := by
        rw [preOne, if_neg hm]
        simp only [hf]
      rw [hstep]
      exact ⟨rfl, hinv, by simp [emitsFor, hm, hf]⟩
    | some p =>
      obtain ⟨idx, fe⟩ := p
      cases hls : lookupStream ws.streams m with
      | some s =>
        have hopen : openStream dsz ws.streams m = ws.streams := by
          rw [openStream, hls]
        have hstep : preOne fs dsz nr ws m =
            ⟨ws.streams, ws.written, ws.outMarks ++
              [(idx, ⟨lastRows fe.marks + nr, s.plain_offset + s.plain_count⟩)]⟩ := by
          rw [preOne, if_neg hm]
          simp only [hf, hopen, hls]
        rw [hstep]
        refine ⟨rfl, hinv, ?_⟩
        simp only [emitsFor, if_neg hm, hf, List.append_nil]
        rw [streamsInv_sum dsz s0 ws.written ws.streams hinv m hm s hls]
      | none =>
        have hopen : openStream dsz ws.streams m = ws.streams ++ [(m, ⟨dsz m, 0⟩)] := by
          rw [openStream, hls]
        have hls2 : lookupStream (ws.streams ++ [(m, ⟨dsz m, 0⟩)]) m =
            some ⟨dsz m, 0⟩ := by
          rw [lookupStream_append, hls]
          simp [lookupStream]
        have hs0 : lookupStream s0 m = none := by
          rcases hinv m hm with heq | ⟨h0, hs⟩
          · rw [← heq, hls]
          · rw [hls] at hs; cases hs
        have hstep : preOne fs dsz nr ws m =
            ⟨ws.streams ++ [(m, ⟨dsz m, 0⟩)], ws.written, ws.outMarks ++
              [(idx, ⟨lastRows fe.marks + nr, dsz m⟩)]⟩ := by
          rw [preOne, if_neg hm]
          simp only [hf, hopen, hls2, Nat.add_zero]
        rw [hstep]
        refine ⟨rfl, ?_, ?_⟩
        · intro sname hn
          by_cases hsm : sname = m
          · subst hsm
            exact Or.inr ⟨hs0, hls2⟩
          · have hkeep : lookupStream (ws.streams ++ [(m, ⟨dsz m, 0⟩)]) sname =
                lookupStream ws.streams sname := by
              rw [lookupStream_append]
              cases hx : lookupStream ws.streams sname with
              | some s => rfl
              | none =>
                show lookupStream [(m, ⟨dsz m, 0⟩)] sname = none
                rw [lookupStream, if_neg (fun h => hsm (h.symm)), lookupStream]
            rw [hkeep]
            exact hinv sname hn
        · simp only [emitsFor, if_neg hm, hf, List.append_nil]
          rw [show baseOffset dsz s0 m = dsz m from by rw [baseOffset, hs0]]

lemma preFold_spec (fs : List FileEntry) (dsz : String → Nat)
    (s0 : List (String × WStream)) (nr : Nat) :
    ∀ (ns : List String) (ws : WState),
      streamsInv dsz s0 ws.written ws.streams →
      (ns.foldl (preOne fs dsz nr) ws).written = ws.written ∧
      streamsInv dsz s0 ws.written (ns.foldl (preOne fs dsz nr) ws).streams ∧
      (ns.foldl (preOne fs dsz nr) ws).outMarks =
        ws.outMarks ++ emitsFor fs (baseOffset dsz s0) nr ws.written ns := by
  intro ns
  induction ns with
  | nil =>
    intro ws hinv
    exact ⟨rfl, hinv, by simp [emitsFor]⟩
  | cons m ns ih =>
    intro ws hinv
    obtain ⟨hw1, hi1, hm1⟩ := preOne_spec fs dsz s0 nr ws m hinv
    obtain ⟨hw2, hi2, hm2⟩ := ih (preOne fs dsz nr ws m) (by rw [hw1]; exact hi1)
    rw [List.foldl_cons]
    refine ⟨by rw [hw2, hw1], by rw [hw1] at hi2; exact hi2, ?_⟩
    rw [hm2, hm1, hw1, List.append_assoc]
    show _ = ws.outMarks ++ emitsFor fs (baseOffset dsz s0) nr ws.written (m :: ns)
    rw [emitsFor]
    congr 1
    simp [emitsFor]

lemma postFold_spec (fsz dsz : String → Nat) (s0 : List (String × WStream)) :
    ∀ (ns : List String) (ws : WState),
      streamsInv dsz s0 ws.written ws.streams →
      (ns.foldl (postOne fsz) ws).outMarks = ws.outMarks ∧
      (∀ x, x ∈ (ns.foldl (postOne fsz) ws).written ↔ x ∈ ws.written ∨ x ∈ ns) ∧
      streamsInv dsz s0 (ns.foldl (postOne fsz) ws).written
        (ns.foldl (postOne fsz) ws).streams := by
  intro ns
  induction ns with
  | nil =>
    intro ws hinv
    exact ⟨rfl, fun x => by simp, hinv⟩
  | cons m ns ih =>
    intro ws hinv
    rw [List.foldl_cons]
    by_cases hm : m ∈ ws.written
    · have hid : postOne fsz ws m = ws := by rw [postOne, if_pos hm]
      rw [hid]
      obtain ⟨h1, h2, h3⟩ := ih ws hinv
      refine ⟨h1, fun x => ?_, h3⟩
      rw [h2 x]
      constructor
      · rintro (h | h)
        · exact Or.inl h
        · exact Or.inr (List.mem_cons_of_mem m h)
      · rintro (h | h)
        · exact Or.inl h
        · rcases List.mem_cons.mp h with rfl | h
          · exact Or.inl hm
          · exact Or.inr h
    · have hstep : postOne fsz ws m =
          ⟨bumpStream ws.streams m (fsz m), m :: ws.written, ws.outMarks⟩ := by
        rw [postOne, if_neg hm]
      rw [hstep]
      have hinv1 : streamsInv dsz s0 (m :: ws.written) (bumpStream ws.streams m (fsz m)) := by
        intro sname hn
        have hne : m ≠ sname := fun h => hn (h ▸ List.mem_cons_self m ws.written)
        have hnw : sname ∉ ws.written := fun h => hn (List.mem_cons_of_mem m h)
        rw [lookupStream_bump_ne ws.streams m sname (fsz m) hne]
        exact hinv sname hnw
      obtain ⟨h1, h2, h3⟩ := ih ⟨bumpStream ws.streams m (fsz m), m :: ws.written, ws.outMarks⟩ hinv1
      refine ⟨h1, fun x => ?_, h3⟩
      rw [h2 x]
      constructor
      · rintro (h | h)
        · rcases List.mem_cons.mp h with rfl | h
          · exact Or.inr (List.mem_cons_self x ns)
          · exact Or.inl h
        · exact Or.inr (List.mem_cons_of_mem m h)
      · rintro (h | h)
        · exact Or.inl (List.mem_cons_of_mem m h)
        · rcases List.mem_cons.mp h with rfl | h
          · exact Or.inl (List.mem_cons_self x ws.written)
          · exact Or.inr h

lemma writeColumn_spec (fs : List FileEntry) (dsz fsz : String → Nat)
    (s0 : List (String × WStream)) (c : BCol) (ws : WState)
    (hinv : streamsInv dsz s0 ws.written ws.streams) :
    (writeColumn fs dsz fsz c ws).outMarks = ws.outMarks ++
      emitsFor fs (baseOffset dsz s0) c.rows ws.written (substreamNames c.type c.name 0) ∧
    (∀ x, x ∈ (writeColumn fs dsz fsz c ws).written ↔
      x ∈ ws.written ∨ x ∈ substreamNames c.type c.name 0) ∧
    streamsInv dsz s0 (writeColumn fs dsz fsz c ws).written
      (writeColumn fs dsz fsz c ws).streams := by
  obtain ⟨hw1, hi1, hm1⟩ := preFold_spec fs dsz s0 c.rows (substreamNames c.type c.name 0) ws hinv
  obtain ⟨h1, h2, h3⟩ := postFold_spec fsz dsz s0 (substreamNames c.type c.name 0)
    ((substreamNames c.type c.name 0).foldl (preOne fs dsz c.rows) ws)
    (by rw [hw1]; exact hi1)
  refine ⟨?_, fun x => ?_, h3⟩
  · rw [writeColumn, h1, hm1]
  · rw [writeColumn, h2 x, hw1]

/-- The marks emitted for a whole block, column by column, the block's
written set accumulating each column's substreams. -/
def blockEmits (fs : List FileEntry) (base : String → Nat) :
    List String → List BCol → List (Nat × Mark)
  | _, [] => []
  | written, c :: cs =>
    emitsFor fs base c.rows written (substreamNames c.type c.name 0) ++
      blockEmits fs base (written ++ substreamNames c.type c.name 0) cs

lemma emitsFor_congr (fs : List FileEntry) (base : String → Nat) (nr : Nat)
    (w1 w2 : List String) (h : ∀ x, x ∈ w1 ↔ x ∈ w2) :
    ∀ ns, emitsFor fs base nr w1 ns = emitsFor fs base nr w2 ns := by
  intro ns
  induction ns with
  | nil => rfl
  | cons m ns ih =>
    rw [emitsFor, emitsFor, ih]
    congr 1
    by_cases hm : m ∈ w1
    · rw [if_pos hm, if_pos ((h m).mp hm)]
    · rw [if_neg hm, if_neg (fun hx => hm ((h m).mpr hx))]

lemma blockFold_marks (dsz fsz : String → Nat) (fs : List FileEntry)
    (s0 : List (String × WStream)) :
    ∀ (cols : List BCol) (ws : WState) (w : List String),
      (∀ x, x ∈ ws.written ↔ x ∈ w) →
      streamsInv dsz s0 ws.written ws.streams →
      (cols.foldl (fun ws c => writeColumn fs dsz fsz c ws) ws).outMarks =
        ws.outMarks ++ blockEmits fs (baseOffset dsz s0) w cols := by
  intro cols
  induction cols with
  | nil => intro ws w hw hinv; simp [blockEmits]
  | cons c cs ih =>
    intro ws w hw hinv
    obtain ⟨hm1, hw1, hi1⟩ := writeColumn_spec fs dsz fsz s0 c ws hinv
    rw [List.foldl_cons]
    rw [ih (writeColumn fs dsz fsz c ws) (w ++ substreamNames c.type c.name 0)
      (fun x => by rw [hw1 x, List.mem_append, hw x]) hi1]
    rw [hm1, List.append_assoc, blockEmits]
    congr 2
    exact emitsFor_congr fs _ c.rows ws.written w hw _

lemma writeBlockState_marks (dsz : String → Nat) (fs : List FileEntry)
    (streams0 : List (String × WStream)) (b : Block) :
    (writeBlockState dsz fs streams0 b).outMarks =
      blockEmits fs (baseOffset dsz streams0) [] b.cols := by
  have h := blockFold_marks dsz b.fsz fs streams0 b.cols ⟨streams0, [], []⟩ []
    (fun x => Iff.rfl) (fun sname _ => Or.inl rfl)
  rw [writeBlockState, h]
  rfl

lemma emitsFor_mem (fs : List FileEntry) (base : String → Nat) (nr : Nat)
    (w : List String) :
    ∀ ns p, p ∈ emitsFor fs base nr w ns →
      ∃ sname fe, sname ∈ ns ∧ sname ∉ w ∧ findFile fs sname = some (p.1, fe) ∧
        p.2 = ⟨lastRows fe.marks + nr, base sname⟩ := by
  intro ns
  induction ns with
  | nil => intro p hp; cases hp
  | cons m ns ih =>
    intro p hp
    rw [emitsFor] at hp
    rcases List.mem_append.mp hp with hp1 | hp1
    · by_cases hm : m ∈ w
      · rw [if_pos hm] at hp1; cases hp1
      · rw [if_neg hm] at hp1
        cases hf : findFile fs m with
        | none => rw [hf] at hp1; cases hp1
        | some q =>
          obtain ⟨idx, fe⟩ := q
          rw [hf] at hp1
          rcases List.mem_singleton.mp hp1 with rfl
          exact ⟨m, fe, List.mem_cons_self m ns, hm, hf, rfl⟩
    · obtain ⟨sname, fe, hin, hw, hf, hm⟩ := ih p hp1
      exact ⟨sname, fe, List.mem_cons_of_mem m hin, hw, hf, hm⟩

lemma blockEmits_mem (fs : List FileEntry) (base : String → Nat) :
    ∀ (cols : List BCol) (w : List String) (p : Nat × Mark),
      p ∈ blockEmits fs base w cols →
      ∃ c ∈ cols, ∃ sname fe, sname ∉ w ∧ findFile fs sname = some (p.1, fe) ∧
        p.2 = ⟨lastRows fe.marks + c.rows, base sname⟩ := by
  intro cols
  induction cols with
  | nil => intro w p hp; cases hp
  | cons c cs ih =>
    intro w p hp
    rcases List.mem_append.mp hp with hp1 | hp1
    · obtain ⟨sname, fe, hin, hw, hf, hm⟩ := emitsFor_mem fs base c.rows w _ p hp1
      exact ⟨c, List.mem_cons_self c cs, sname, fe, hw, hf, hm⟩
    · obtain ⟨c', hc', sname, fe, hw, hf, hm⟩ := ih _ p hp1
      exact ⟨c', List.mem_cons_of_mem c hc', sname, fe,
        fun h => hw (List.mem_append.mpr (Or.inl h)), hf, hm⟩

/-- C1.  For every substream mark emitted while writing a block whose
columns all hold `n` rows: `mark.rows` is the substream's previous mark's
`rows` (or 0 when its vector is empty) plus the block's row count, and
`mark.offset` is the data file size observed when this writer first opened
the substream's stream plus the bytes this writer had already pushed into
that stream's plain buffer. -/
theorem claim1_write_mark_values (st : Storage) (dsz : String → Nat)
    (streams0 : List (String × WStream)) (b : Block) (n : Nat)
    (hn : ∀ c ∈ b.cols, c.rows = n) :
    ∀ p ∈ (writeBlockState dsz st.files streams0 b).outMarks,
      ∃ fe, st.files[p.1]? = some fe ∧
        p.2.rows = lastRows fe.marks + n ∧
        p.2.offset = baseOffset dsz streams0 fe.name := by
  intro p hp
  rw [writeBlockState_marks] at hp
  obtain ⟨c, hc, sname, fe, hw, hf, hm⟩ := blockEmits_mem st.files _ b.cols [] p hp
  obtain ⟨hget, hname⟩ := findFile_some st.files sname p.1 fe hf
  refine ⟨fe, hget, ?_, ?_⟩
  · rw [hm, hn c hc]
  · rw [hm, hname]

/-- Witness for C1: a one-column block of 3 rows on a table whose substream
already has a mark `(2, 7)`, written by a fresh writer over a 10-byte data
file; the emitted mark is `(2 + 3, 10 + 0)`. -/
theorem claim1_witness :
    ∃ fe, ([⟨"a", [⟨2, 7⟩]⟩] : List FileEntry)[(0 : Nat)]? = some fe ∧
      (⟨5, 10⟩ : Mark).rows = lastRows fe.marks + 3 ∧
      (⟨5, 10⟩ : Mark).offset = baseOffset (fun _ => 10) [] fe.name := by
  exact claim1_write_mark_values ⟨[⟨"a", [⟨2, 7⟩]⟩], none, true⟩ (fun _ => 10) []
    ⟨[⟨"a", .uint64, 3⟩], fun _ => 4⟩ 3
    (fun c hc => by rw [List.mem_singleton.mp hc])
    ((0 : Nat), (⟨5, 10⟩ : Mark)) (by decide)

/-- A single-column scalar block: one column named `sname` holding `r` rows,
whose serialization flushes a compressed frame of `f` bytes. -/
def scalarBlock (sname : String) (r f : Nat) : Block :=
  ⟨[⟨sname, .uint64, r⟩], fun _ => f⟩

/-- C4 counterexample.  A fresh single-substream table: one block of 3 rows
whose frame is 5 bytes, written at file position 0.  The recorded mark is
`(3, 0)`: its offset is the position at which block 0's *own* frame begins,
not the position after block 0's frames (0 + 5) where the next block's frame
would begin, as the claim states. -/
theorem claim4_counterexample :
    (writeBlocks (fun _ => 0) ⟨[⟨"a", []⟩], none, true⟩ [] [scalarBlock "a" 3 5]).map
        (fun res => res.1.files) = .ok [⟨"a", [⟨3, 0⟩]⟩] ∧
    (0 : Nat) ≠ 0 + 5 := by
  exact ⟨by decide, by decide⟩


lemma getElem?_some_lt {α : Type} (l : List α) (i : Nat) (a : α) (h : l[i]? = some a) :
    i < l.length := by
  by_contra hge
  rw [List.getElem?_eq_none (Nat.le_of_not_lt hge)] at h
  cases h

lemma findFile_inj (fs : List FileEntry) (n1 n2 : String) (i : Nat)
    (fe1 fe2 : FileEntry) (h1 : findFile fs n1 = some (i, fe1))
    (h2 : findFile fs n2 = some (i, fe2)) : n1 = n2 := by
  obtain ⟨hg1, hn1⟩ := findFile_some fs n1 i fe1 h1
  obtain ⟨hg2, hn2⟩ := findFile_some fs n2 i fe2 h2
  rw [hg1, Option.some.injEq] at hg2
  rw [← hn1, ← hn2, hg2]

lemma emitsFor_keys_nodup (fs : List FileEntry) (base : String → Nat) (nr : Nat)
    (w : List String) : ∀ ns, ns.Nodup →
      ((emitsFor fs base nr w ns).map (·.1)).Nodup := by
  intro ns
  induction ns with
  | nil => intro h; simp [emitsFor]
  | cons m ns ih =>
    intro h
    rw [List.nodup_cons] at h
    obtain ⟨hm, hns⟩ := h
    rw [emitsFor, List.map_append, List.nodup_append]
    refine ⟨?_, ih hns, ?_⟩
    · by_cases hmw : m ∈ w
      · rw [if_pos hmw]; exact List.nodup_nil
      · rw [if_neg hmw]
        cases hf : findFile fs m with
        | none => exact List.nodup_nil
        | some q => simp
    · intro a ha hb
      by_cases hmw : m ∈ w
      · rw [if_pos hmw] at ha; cases ha
      · rw [if_neg hmw] at ha
        cases hf : findFile fs m with
        | none => rw [hf] at ha; cases ha
        | some q =>
          obtain ⟨idx, fe⟩ := q
          rw [hf] at ha
          rcases List.mem_singleton.mp ha with rfl
          obtain ⟨p, hp, hpa⟩ := List.mem_map.mp hb
          obtain ⟨s2, fe2, hin2, hw2, hf2, -⟩ := emitsFor_mem fs base nr w ns p hp
          rw [hpa] at hf2
          have hms : m = s2 := findFile_inj fs m s2 _ fe fe2 hf hf2
          rw [hms] at hm
          exact hm hin2

lemma blockEmits_keys_nodup (fs : List FileEntry) (base : String → Nat) :
    ∀ (cols : List BCol), (∀ c ∈ cols, (substreamNames c.type c.name 0).Nodup) →
      ∀ w, ((blockEmits fs base w cols).map (·.1)).Nodup := by
  intro cols
  induction cols with
  | nil => intro h w; simp [blockEmits]
  | cons c cs ih =>
    intro h w
    rw [blockEmits, List.map_append, List.nodup_append]
    refine ⟨emitsFor_keys_nodup fs base c.rows w _ (h c (List.mem_cons_self c cs)),
      ih (fun c' hc' => h c' (List.mem_cons_of_mem c hc')) _, ?_⟩
    intro a ha hb
    obtain ⟨p, hp, hpa⟩ := List.mem_map.mp ha
    obtain ⟨s1, fe1, hin1, hw1, hf1, -⟩ := emitsFor_mem fs base c.rows w _ p hp
    obtain ⟨q, hq, hqa⟩ := List.mem_map.mp hb
    obtain ⟨c', hc', s2, fe2, hw2, hf2, -⟩ := blockEmits_mem fs base cs _ q hq
    rw [hpa] at hf1
    rw [hqa] at hf2
    have hss : s1 = s2 := findFile_inj fs s1 s2 a fe1 fe2 hf1 hf2
    apply hw2
    rw [← hss]
    exact List.mem_append.mpr (Or.inr hin1)

lemma foldl_pushMark_length (l : List (Nat × Mark)) (fs : List FileEntry) :
    (l.foldl (fun fs p => pushMark fs p.1 p.2) fs).length = fs.length := by
  induction l generalizing fs with
  | nil => rfl
  | cons p l ih =>
    rw [List.foldl_cons, ih, pushMark]
    cases hfs : fs[p.1]? with
    | none => rfl
    | some fe => exact List.length_set fs p.1 _

lemma mem_of_nodup_full (L : List Nat) (fc : Nat) (hN : L.Nodup) (hlen : L.length = fc)
    (hb : ∀ x ∈ L, x < fc) : ∀ i, i < fc → i ∈ L := by
  intro i hi
  have h1 : L.toFinset ⊆ Finset.range fc := by
    intro x hx
    exact Finset.mem_range.mpr (hb x (List.mem_toFinset.mp hx))
  have h2 : L.toFinset = Finset.range fc := by
    refine Finset.eq_of_subset_of_card_le h1 ?_
    rw [Finset.card_range, List.toFinset_card_of_nodup hN, hlen]
  rw [← List.mem_toFinset, h2]
  exact Finset.mem_range.mpr hi

lemma filter_keys_singleton :
    ∀ (l : List (Nat × Mark)), ((l.map (·.1)).Nodup) →
      ∀ (i : Nat) (m : Mark), (i, m) ∈ l →
        l.filter (fun p => p.1 == i) = [(i, m)] := by
  intro l
  induction l with
  | nil => intro h i m hm; cases hm
  | cons q l ih =>
    intro h i m hm
    rw [List.map_cons, List.nodup_cons] at h
    obtain ⟨hq, hl⟩ := h
    rcases List.mem_cons.mp hm with rfl | hm2
    · rw [List.filter_cons, if_pos (by simp)]
      have hnil : l.filter (fun p => p.1 == i) = [] := by
        rw [List.filter_eq_nil_iff]
        intro a ha
        simp only [beq_iff_eq]
        intro he
        apply hq
        rw [← he]
        exact List.mem_map.mpr ⟨a, ha, rfl⟩
      rw [hnil]
    · have hqi : ¬ (q.1 == i) = true := by
        simp only [beq_iff_eq]
        intro he
        apply hq
        rw [he]
        exact List.mem_map.mpr ⟨(i, m), hm2, rfl⟩
      rw [List.filter_cons, if_neg hqi]
      exact ih hl i m hm2

lemma lastRows_map_rows (ms : List Mark) :
    lastRows ms = ((ms.map (·.rows)).getLast?).getD 0 := by
  rw [lastRows, List.getLast?_map]
  cases ms.getLast? <;> rfl

lemma writeMarks_ok_char (marks : List (Nat × Mark)) (st st' : Storage)
    (h : writeMarks marks st = .ok st') :
    marks.length = st.files.length ∧
    st'.files = (List.insertionSort (fun a b => a.1 ≤ b.1) marks).foldl
      (fun fs p => pushMark fs p.1 p.2) st.files := by
  by_cases hlen : marks.length ≠ st.files.length
  · rw [writeMarks, if_pos hlen] at h; cases h
  · rw [writeMarks, if_neg hlen] at h
    have h' : Except.ok (⟨(List.insertionSort (fun a b => a.1 ≤ b.1) marks).foldl
        (fun fs p => pushMark fs p.1 p.2) st.files,
      some (st.marksBytes.getD [] ++
        (List.insertionSort (fun a b => a.1 ≤ b.1) marks).flatMap
          (fun p => encodeU64LE p.2.rows ++ encodeU64LE p.2.offset)),
      st.loaded_marks⟩ : Storage) = .ok st' := h
    cases h'
    exact ⟨by omega, rfl⟩

/-- The lock-step invariant: every pair of substreams of the table carries
the same sequence of `rows` values (hence also mark vectors of identical
length). -/
def lockStep (fs : List FileEntry) : Prop :=
  ∀ i, i < fs.length → ∀ j, j < fs.length →
    (fs.getD i default).marks.map (·.rows) = (fs.getD j default).marks.map (·.rows)

/-- A block the writer accepts: all columns carry the same row count (the
`Block` invariant `storage.check` enforces) and no column enumerates the
same substream twice. -/
def blockOk (b : Block) : Prop :=
  (∃ n, ∀ c ∈ b.cols, c.rows = n) ∧
  ∀ c ∈ b.cols, (substreamNames c.type c.name 0).Nodup

lemma writeBlock_lockStep (dsz : String → Nat) (st : Storage)
    (streams0 : List (String × WStream)) (b : Block) (st' : Storage)
    (streams' : List (String × WStream)) (n : Nat)
    (hls : lockStep st.files)
    (hn : ∀ c ∈ b.cols, c.rows = n)
    (hnod : ∀ c ∈ b.cols, (substreamNames c.type c.name 0).Nodup)
    (h : writeBlock dsz st streams0 b = .ok (st', streams')) :
    lockStep st'.files ∧ st'.files.length = st.files.length := by
  cases hwm : writeMarks (writeBlockState dsz st.files streams0 b).outMarks st with
  | error e =>
    simp only [writeBlock] at h
    rw [hwm] at h
    have h' : (Except.error e : Except Err (Storage × List (String × WStream))) =
      .ok (st', streams') := h
    cases h'
  | ok st2 =>
    simp only [writeBlock] at h
    rw [hwm] at h
    have h' : (Except.ok (st2, (writeBlockState dsz st.files streams0 b).streams) :
        Except Err (Storage × List (String × WStream))) = .ok (st', streams') := h
    injection h' with h''
    injection h'' with ha hb
    subst st2
    obtain ⟨hlen, hfiles⟩ := writeMarks_ok_char _ st st' hwm
    have hout := writeBlockState_marks dsz st.files streams0 b
    have hnodk : (((writeBlockState dsz st.files streams0 b).outMarks).map (·.1)).Nodup := by
      rw [hout]
      exact blockEmits_keys_nodup st.files _ b.cols hnod []
    have hbound : ∀ p ∈ (writeBlockState dsz st.files streams0 b).outMarks,
        p.1 < st.files.length := by
      intro p hp
      rw [hout] at hp
      obtain ⟨c, hc, s, fe, hw, hf, hm⟩ := blockEmits_mem st.files _ b.cols [] p hp
      obtain ⟨hg, -⟩ := findFile_some st.files s p.1 fe hf
      exact getElem?_some_lt st.files p.1 fe hg
    have hmark : ∀ k, k < st.files.length →
        ∃ fek mk, st.files[k]? = some fek ∧
          st'.files[k]? = some ⟨fek.name, fek.marks ++ [mk]⟩ ∧
          mk.rows = lastRows fek.marks + n := by
      intro k hk
      have hkmem : k ∈ ((writeBlockState dsz st.files streams0 b).outMarks).map (·.1) := by
        refine mem_of_nodup_full _ st.files.length hnodk
          (by rw [List.length_map, hlen]) ?_ k hk
        intro x hx
        obtain ⟨p, hp, hpx⟩ := List.mem_map.mp hx
        rw [← hpx]
        exact hbound p hp
      obtain ⟨p, hp, hpk⟩ := List.mem_map.mp hkmem
      have hval : ∃ fek, st.files[k]? = some fek ∧ p.2.rows = lastRows fek.marks + n := by
        rw [hout] at hp
        obtain ⟨c, hc, s, fe, hw, hf, hm⟩ := blockEmits_mem st.files _ b.cols [] p hp
        obtain ⟨hg, -⟩ := findFile_some st.files s p.1 fe hf
        rw [hpk] at hg
        exact ⟨fe, hg, by rw [hm, hn c hc]⟩
      obtain ⟨fek, hgk, hrows⟩ := hval
      have hperm := List.perm_insertionSort (fun a b => a.1 ≤ b.1)
        ((writeBlockState dsz st.files streams0 b).outMarks)
      have hsortnod : ((List.insertionSort (fun a b => a.1 ≤ b.1)
          ((writeBlockState dsz st.files streams0 b).outMarks)).map (·.1)).Nodup :=
        ((hperm.map (·.1)).nodup_iff).mpr hnodk
      have hpmem : (k, p.2) ∈ List.insertionSort (fun a b => a.1 ≤ b.1)
          ((writeBlockState dsz st.files streams0 b).outMarks) := by
        refine hperm.mem_iff.mpr ?_
        rw [← hpk, Prod.mk.eta]
        exact hp
      have hfilter := filter_keys_singleton _ hsortnod k p.2 hpmem
      have hchar := foldl_pushMark (List.insertionSort (fun a b => a.1 ≤ b.1)
        ((writeBlockState dsz st.files streams0 b).outMarks)) st.files k
      rw [hfilter] at hchar
      refine ⟨fek, p.2, hgk, ?_, hrows⟩
      rw [hfiles, hchar, hgk]
      rfl
    refine ⟨?_, by rw [hfiles, foldl_pushMark_length]⟩
    intro i hi j hj
    rw [hfiles, foldl_pushMark_length] at hi hj
    obtain ⟨fei, mi, hgi, hsi, hri⟩ := hmark i hi
    obtain ⟨fej, mj, hgj, hsj, hrj⟩ := hmark j hj
    have hdi : st'.files.getD i default = ⟨fei.name, fei.marks ++ [mi]⟩ := by
      rw [List.getD_eq_getElem?_getD, hsi]
      rfl
    have hdj : st'.files.getD j default = ⟨fej.name, fej.marks ++ [mj]⟩ := by
      rw [List.getD_eq_getElem?_getD, hsj]
      rfl
    rw [hdi, hdj]
    have hmaps : fei.marks.map (·.rows) = fej.marks.map (·.rows) := by
      have h1 : st.files.getD i default = fei := by
        rw [List.getD_eq_getElem?_getD, hgi]
        rfl
      have h2 : st.files.getD j default = fej := by
        rw [List.getD_eq_getElem?_getD, hgj]
        rfl
      have h3 := hls i hi j hj
      rw [h1, h2] at h3
      exact h3
    have hlast : lastRows fei.marks = lastRows fej.marks := by
      rw [lastRows_map_rows, lastRows_map_rows, hmaps]
    simp only [List.map_append, List.map_cons, List.map_nil]
    rw [hmaps, hri, hrj, hlast]

lemma writeBlocks_lockStep (dsz : String → Nat) :
    ∀ (bs : List Block) (st : Storage) (streams : List (String × WStream))
      (out : Storage × List (String × WStream)),
      lockStep st.files → (∀ b ∈ bs, blockOk b) →
      writeBlocks dsz st streams bs = .ok out → lockStep out.1.files := by
  intro bs
  induction bs with
  | nil =>
    intro st streams out hls hbs h
    have h' : (Except.ok (st, streams) :
      Except Err (Storage × List (String × WStream))) = .ok out := h
    cases h'
    exact hls
  | cons b bs ih =>
    intro st streams out hls hbs h
    cases hwb : writeBlock dsz st streams b with
    | error e =>
      rw [writeBlocks, hwb] at h
      have h' : (Except.error e :
        Except Err (Storage × List (String × WStream))) = .ok out := h
      cases h'
    | ok res =>
      obtain ⟨st1, streams1⟩ := res
      rw [writeBlocks, hwb] at h
      have h' : writeBlocks dsz st1 streams1 bs = .ok out := h
      obtain ⟨hb1, hb2⟩ := hbs b (List.mem_cons_self b bs)
      obtain ⟨n, hn⟩ := hb1
      obtain ⟨hls1, -⟩ := writeBlock_lockStep dsz st streams b st1 streams1 n hls hn hb2 hwb
      exact ih st1 streams1 out hls1 (fun b' hb' => hbs b' (List.mem_cons_of_mem b hb')) h'

/-- A marks file whose record-groups are internally consistent: within each
group all `rows` values agree (which is what `writeMarks` always
produces). -/
def marksConsistent (fc : Nat) (bytes : List Nat) : Prop :=
  ∀ k, k < bytes.length / (fc * 16) → ∀ i, i < fc → ∀ j, j < fc →
    (markAt bytes (k * fc + i)).rows = (markAt bytes (k * fc + j)).rows

/-- Either the marks file is absent, or its record-groups are consistent. -/
def marksFileOk (st : Storage) : Prop :=
  match st.marksBytes with
  | none => True
  | some bytes => marksConsistent st.files.length bytes

lemma lockStep_of_empty (fs : List FileEntry) (hempty : ∀ fe ∈ fs, fe.marks = []) :
    lockStep fs := by
  intro i hi j hj
  have h1 : fs.getD i default ∈ fs := by
    rw [List.getD_eq_getElem?_getD, List.getElem?_eq_getElem hi]
    exact List.getElem_mem hi
  have h2 : fs.getD j default ∈ fs := by
    rw [List.getD_eq_getElem?_getD, List.getElem?_eq_getElem hj]
    exact List.getElem_mem hj
  rw [hempty _ h1, hempty _ h2]

lemma loadMarks_lockStep (st st' : Storage)
    (hempty : ∀ fe ∈ st.files, fe.marks = [])
    (hfile : marksFileOk st)
    (h : loadMarks st = .ok st') :
    lockStep st'.files ∧ st'.files.length = st.files.length := by
  by_cases hld : st.loaded_marks
  · rw [loadMarks, if_pos hld] at h
    cases h
    exact ⟨lockStep_of_empty st.files hempty, rfl⟩
  · have hld' : st.loaded_marks = false := by
      simpa using hld
    cases hmb : st.marksBytes with
    | none =>
      have hok : loadMarks st = .ok { st with loaded_marks := true } := by
        simp [loadMarks, hld', hmb]
      rw [hok] at h
      cases h
      exact ⟨lockStep_of_empty _ hempty, rfl⟩
    | some bytes =>
      by_cases hsz : bytes.length % (st.files.length * 16) ≠ 0
      · have herr : loadMarks st = .error .inconsistentMarksFile := by
          simp [loadMarks, hld', hmb, hsz]
        rw [herr] at h
        cases h
      · have hmod : bytes.length % (st.files.length * 16) = 0 := by omega
        have hok : loadMarks st =
            .ok ⟨loadLoop bytes.length bytes st.files, st.marksBytes, true⟩ := by
          simp [loadMarks, hld', hmb, hmod]
        rw [hok] at h
        cases h
        refine ⟨?_, loadLoop_length bytes.length bytes st.files⟩
        show lockStep (loadLoop bytes.length bytes st.files)
        cases Nat.eq_zero_or_pos st.files.length with
        | inl hfc0 =>
          intro i hi j hj
          rw [loadLoop_length, hfc0] at hi
          cases hi
        | inr hfc =>
          have hcons : marksConsistent st.files.length bytes := by
            rw [marksFileOk, hmb] at hfile
            exact hfile
          have hdiv : bytes.length =
              (bytes.length / (st.files.length * 16)) * (st.files.length * 16) :=
            (Nat.div_mul_cancel (Nat.dvd_of_mod_eq_zero hmod)).symm
          have hchar := loadLoop_spec st.files.length hfc _ bytes st.files bytes.length
            rfl hdiv (Nat.div_le_self _ _)
          intro i hi j hj
          rw [loadLoop_length] at hi hj
          have hgi : st.files[i]? = some st.files[i] := List.getElem?_eq_getElem hi
          have hgj : st.files[j]? = some st.files[j] := List.getElem?_eq_getElem hj
          have hci := hchar i
          have hcj := hchar j
          rw [hgi] at hci
          rw [hgj] at hcj
          have hdi : (loadLoop bytes.length bytes st.files).getD i default =
              ⟨(st.files[i]).name, (st.files[i]).marks ++
                (List.range (bytes.length / (st.files.length * 16))).map
                  (fun k => markAt bytes (k * st.files.length + i))⟩ := by
            rw [List.getD_eq_getElem?_getD, hci]
            rfl
          have hdj : (loadLoop bytes.length bytes st.files).getD j default =
              ⟨(st.files[j]).name, (st.files[j]).marks ++
                (List.range (bytes.length / (st.files.length * 16))).map
                  (fun k => markAt bytes (k * st.files.length + j))⟩ := by
            rw [List.getD_eq_getElem?_getD, hcj]
            rfl
          rw [hdi, hdj]
          have hmem_i : st.files[i] ∈ st.files := List.getElem_mem hi
          have hmem_j : st.files[j] ∈ st.files := List.getElem_mem hj
          rw [hempty _ hmem_i, hempty _ hmem_j]
          simp only [List.nil_append, List.map_map]
          refine List.map_congr_left (fun k hk => ?_)
          simp only [Function.comp_apply]
          exact hcons k (List.mem_range.mp hk) i hi j hj

/-- C7.  After `loadMarks` (from an absent marks file, or from one whose
record-groups are internally consistent — which is all `writeMarks` ever
produces) and any sequence of successful `write(block)` calls, every pair
of substreams has mark vectors with identical `rows` sequences — in
particular identical lengths and equal `rows` at every index: the
lock-step invariant is preserved by every operation that mutates the mark
vectors. -/
theorem claim7_lockstep (dsz : String → Nat) (st st1 : Storage) (bs : List Block)
    (out : Storage × List (String × WStream))
    (hempty : ∀ fe ∈ st.files, fe.marks = [])
    (hfile : marksFileOk st)
    (hbs : ∀ b ∈ bs, blockOk b)
    (hload : loadMarks st = .ok st1)
    (hwrite : writeBlocks dsz st1 [] bs = .ok out) :
    lockStep out.1.files := by
  obtain ⟨hls1, -⟩ := loadMarks_lockStep st st1 hempty hfile hload
  exact writeBlocks_lockStep dsz bs st1 [] out hls1 hbs hwrite

/-- Witness for C7: a fresh two-substream table, one two-column block of two
rows; both substreams end with rows sequence `[2]`. -/
theorem claim7_witness :
    lockStep [⟨"a", [⟨2, 0⟩]⟩, ⟨"b", [⟨2, 0⟩]⟩] := by
  have h := claim7_lockstep (fun _ => 0) ⟨[⟨"a", []⟩, ⟨"b", []⟩], none, false⟩
    ⟨[⟨"a", []⟩, ⟨"b", []⟩], none, true⟩
    [⟨[⟨"a", .uint64, 2⟩, ⟨"b", .uint64, 2⟩], fun _ => 3⟩]
    (⟨[⟨"a", [⟨2, 0⟩]⟩, ⟨"b", [⟨2, 0⟩]⟩],
      some (encodeU64LE 2 ++ encodeU64LE 0 ++ (encodeU64LE 2 ++ encodeU64LE 0 ++ [])), true⟩,
      [("a", ⟨0, 3⟩), ("b", ⟨0, 3⟩)])
    (by decide) trivial
    (fun b hb => by
      rw [List.mem_singleton.mp hb]
      exact ⟨⟨2, by decide⟩, by decide⟩)
    (by decide) (by decide)
  exact h

/-! ### C4: mark offsets across a multi-block writer session

The offset a block's mark records for a substream is the position at which
that block's own frames begin in the substream's data file.  To prove this
for every substream of any table — including substreams shared between
columns of a multi-column block — the lemmas below characterize the
writer's stream map pointwise: across one block, every enumerated
registered substream's plain buffer grows by exactly one frame, everything
else is untouched; accumulated over a session, each substream's base
offset is its data file size at open plus the frames of all earlier
blocks. -/

lemma lookupStream_bump_self (ss : List (String × WStream)) (m : String) (k : Nat) :
    lookupStream (bumpStream ss m k) m =
      (lookupStream ss m).map
        (fun s => (⟨s.plain_offset, s.plain_count + k⟩ : WStream)) := by
  induction ss with
  | nil => rfl
  | cons p ps ih =>
    by_cases hp : p.1 = m
    · simp [bumpStream, lookupStream, hp]
    · simp only [bumpStream, if_neg hp, lookupStream]
      exact ih

lemma lookupStream_open_self (dsz : String → Nat) (ss : List (String × WStream))
    (n : String) :
    lookupStream (openStream dsz ss n) n =
      match lookupStream ss n with
      | some s => some s
      | none => some ⟨dsz n, 0⟩ := by
  rw [openStream]
  cases hls : lookupStream ss n with
  | some s => exact hls
  | none =>
    show lookupStream (ss ++ [(n, ⟨dsz n, 0⟩)]) n = some ⟨dsz n, 0⟩
    rw [lookupStream_append, hls]
    simp [lookupStream]

lemma lookupStream_open_ne (dsz : String → Nat) (ss : List (String × WStream))
    (m sname : String) (h : sname ≠ m) :
    lookupStream (openStream dsz ss m) sname = lookupStream ss sname := by
  rw [openStream]
  cases hls : lookupStream ss m with
  | some s => rfl
  | none =>
    show lookupStream (ss ++ [(m, ⟨dsz m, 0⟩)]) sname = lookupStream ss sname
    rw [lookupStream_append]
    cases hx : lookupStream ss sname with
    | some s => rfl
    | none =>
      show lookupStream [(m, ⟨dsz m, 0⟩)] sname = none
      rw [lookupStream, if_neg (fun he => h he.symm), lookupStream]

lemma preOne_streams (fs : List FileEntry) (dsz : String → Nat) (nr : Nat)
    (ws : WState) (m : String) :
    (preOne fs dsz nr ws m).streams =
      if m ∉ ws.written ∧ (findFile fs m).isSome then openStream dsz ws.streams m
      else ws.streams := by
  by_cases hm : m ∈ ws.written
  · rw [preOne, if_pos hm, if_neg (by simp [hm])]
  · cases hf : findFile fs m with
    | none =>
      rw [preOne, if_neg hm]
      simp only [hf]
      rw [if_neg (by simp [hf])]
    | some p =>
      obtain ⟨idx, fe⟩ := p
      rw [preOne, if_neg hm]
      simp only [hf]
      rw [if_pos ⟨hm, by simp [hf]⟩]
      cases hls : lookupStream (openStream dsz ws.streams m) m with
      | none =>
        have hcontra := lookupStream_open_self dsz ws.streams m
        rw [hls] at hcontra
        cases hx : lookupStream ws.streams m <;> simp [hx] at hcontra
      | some s => rfl

lemma preOne_written_plain (fs : List FileEntry) (dsz : String → Nat) (nr : Nat)
    (ws : WState) (m : String) : (preOne fs dsz nr ws m).written = ws.written :=
  (preOne_spec fs dsz ws.streams nr ws m (fun _ _ => Or.inl rfl)).1

lemma preFold_streams (fs : List FileEntry) (dsz : String → Nat) (nr : Nat) :
    ∀ (ns : List String) (ws : WState) (sname : String),
      lookupStream ((ns.foldl (preOne fs dsz nr) ws).streams) sname =
        if sname ∉ ws.written ∧ sname ∈ ns ∧ (findFile fs sname).isSome ∧
            lookupStream ws.streams sname = none
        then some ⟨dsz sname, 0⟩
        else lookupStream ws.streams sname := by
  intro ns
  induction ns with
  | nil =>
    intro ws sname
    rw [List.foldl_nil, if_neg (by simp)]
  | cons m ns ih =>
    intro ws sname
    rw [List.foldl_cons, ih]
    rw [preOne_written_plain]
    have hs := preOne_streams fs dsz nr ws m
    by_cases hsm : sname = m
    · subst hsm
      by_cases hw : sname ∈ ws.written
      · have hkeep : (preOne fs dsz nr ws sname).streams = ws.streams := by
          rw [hs, if_neg (by simp [hw])]
        rw [hkeep, if_neg (by simp [hw]), if_neg (by simp [hw])]
      · by_cases hr : (findFile fs sname).isSome
        · have hopen : (preOne fs dsz nr ws sname).streams =
              openStream dsz ws.streams sname := by
            rw [hs, if_pos ⟨hw, hr⟩]
          rw [hopen]
          have hself := lookupStream_open_self dsz ws.streams sname
          cases hx : lookupStream ws.streams sname with
          | some s =>
            have hself2 : lookupStream (openStream dsz ws.streams sname) sname =
                some s := by rw [hself, hx]
            rw [if_neg (by simp [hself2]), hself2, if_neg (by simp)]
          | none =>
            have hself2 : lookupStream (openStream dsz ws.streams sname) sname =
                some ⟨dsz sname, 0⟩ := by rw [hself, hx]
            rw [if_neg (by simp [hself2]), hself2,
              if_pos ⟨hw, List.mem_cons_self sname ns, hr, rfl⟩]
        · have hkeep : (preOne fs dsz nr ws sname).streams = ws.streams := by
            rw [hs, if_neg (by simp [hr])]
          rw [hkeep, if_neg (by simp [hr]), if_neg (by simp [hr])]
    · have hkeep : lookupStream (preOne fs dsz nr ws m).streams sname =
          lookupStream ws.streams sname := by
        rw [hs]
        split
        · exact lookupStream_open_ne dsz ws.streams m sname hsm
        · rfl
      rw [hkeep]
      exact if_congr (by simp [List.mem_cons, hsm]) rfl rfl

lemma postFold_streams (fsz : String → Nat) :
    ∀ (ns : List String) (ws : WState) (sname : String),
      lookupStream ((ns.foldl (postOne fsz) ws).streams) sname =
        if sname ∉ ws.written ∧ sname ∈ ns then
          (lookupStream ws.streams sname).map
            (fun s => (⟨s.plain_offset, s.plain_count + fsz sname⟩ : WStream))
        else lookupStream ws.streams sname := by
  intro ns
  induction ns with
  | nil =>
    intro ws sname
    rw [List.foldl_nil, if_neg (by simp)]
  | cons m ns ih =>
    intro ws sname
    rw [List.foldl_cons, ih]
    by_cases hm : m ∈ ws.written
    · have hid : postOne fsz ws m = ws := by rw [postOne, if_pos hm]
      rw [hid]
      refine if_congr ?_ rfl rfl
      by_cases hsm : sname = m
      · subst hsm
        simp [hm]
      · simp [List.mem_cons, hsm]
    · have hwr : (postOne fsz ws m).written = m :: ws.written := by
        rw [postOne, if_neg hm]
      have hst : (postOne fsz ws m).streams = bumpStream ws.streams m (fsz m) := by
        rw [postOne, if_neg hm]
      rw [hwr, hst]
      by_cases hsm : sname = m
      · subst hsm
        rw [if_neg (by simp), lookupStream_bump_self,
          if_pos ⟨hm, List.mem_cons_self sname ns⟩]
      · rw [lookupStream_bump_ne ws.streams m sname (fsz m) (fun h => hsm h.symm)]
        refine if_congr ?_ rfl rfl
        simp [List.mem_cons, hsm]

lemma writeColumn_streams (fs : List FileEntry) (dsz fsz : String → Nat)
    (c : BCol) (ws : WState) (sname : String)
    (hreg : ∀ s2, (lookupStream ws.streams s2).isSome → (findFile fs s2).isSome) :
    lookupStream (writeColumn fs dsz fsz c ws).streams sname =
      if sname ∉ ws.written ∧ sname ∈ substreamNames c.type c.name 0 ∧
          (findFile fs sname).isSome then
        some (match lookupStream ws.streams sname with
          | some s => (⟨s.plain_offset, s.plain_count + fsz sname⟩ : WStream)
          | none => (⟨dsz sname, fsz sname⟩ : WStream))
      else lookupStream ws.streams sname := by
  have hw1 : ((substreamNames c.type c.name 0).foldl (preOne fs dsz c.rows) ws).written =
      ws.written :=
    (preFold_spec fs dsz ws.streams c.rows (substreamNames c.type c.name 0) ws
      (fun _ _ => Or.inl rfl)).1
  have hpre := preFold_streams fs dsz c.rows (substreamNames c.type c.name 0) ws sname
  have hpost := postFold_streams fsz (substreamNames c.type c.name 0)
    ((substreamNames c.type c.name 0).foldl (preOne fs dsz c.rows) ws) sname
  rw [hw1] at hpost
  by_cases hm : sname ∈ ws.written
  · rw [if_neg (by simp [hm]) ] at hpre
    rw [if_neg (by simp [hm]), hpre] at hpost
    rw [if_neg (by simp [hm])]
    exact hpost
  · by_cases hn : sname ∈ substreamNames c.type c.name 0
    · by_cases hr : (findFile fs sname).isSome
      · rw [if_pos ⟨hm, hn⟩, hpre] at hpost
        rw [if_pos ⟨hm, hn, hr⟩]
        cases hx : lookupStream ws.streams sname with
        | some s =>
          rw [hx, if_neg (by simp)] at hpost
          exact hpost
        | none =>
          rw [hx, if_pos ⟨hm, hn, hr, rfl⟩] at hpost
          have hfin : lookupStream (writeColumn fs dsz fsz c ws).streams sname =
              some (⟨dsz sname, 0 + fsz sname⟩ : WStream) := hpost
          rw [Nat.zero_add] at hfin
          exact hfin
      · rw [if_neg (by simp [hr])] at hpre
        rw [if_pos ⟨hm, hn⟩, hpre] at hpost
        have hx : lookupStream ws.streams sname = none := by
          cases hx2 : lookupStream ws.streams sname with
          | none => rfl
          | some s => exact absurd (hreg sname (by rw [hx2]; rfl)) hr
        rw [hx] at hpost
        rw [if_neg (fun h3 => hr h3.2.2), hx]
        exact hpost
    · rw [if_neg (by simp [hn])] at hpre
      rw [if_neg (by simp [hn]), hpre] at hpost
      rw [if_neg (fun h3 => hn h3.2.1)]
      exact hpost

lemma writeColumn_reg (fs : List FileEntry) (dsz fsz : String → Nat)
    (c : BCol) (ws : WState)
    (hreg : ∀ s2, (lookupStream ws.streams s2).isSome → (findFile fs s2).isSome) :
    ∀ s2, (lookupStream (writeColumn fs dsz fsz c ws).streams s2).isSome →
      (findFile fs s2).isSome := by
  intro s2 h
  rw [writeColumn_streams fs dsz fsz c ws s2 hreg] at h
  by_cases hc : s2 ∉ ws.written ∧ s2 ∈ substreamNames c.type c.name 0 ∧
      (findFile fs s2).isSome
  · exact hc.2.2
  · rw [if_neg hc] at h
    exact hreg s2 h

/-- All substream names a block's columns enumerate. -/
def blockNames (b : Block) : List String :=
  b.cols.flatMap (fun c => substreamNames c.type c.name 0)

lemma blockFold_streams (fs : List FileEntry) (dsz fsz : String → Nat) :
    ∀ (cols : List BCol) (ws : WState) (sname : String),
      (∀ s2, (lookupStream ws.streams s2).isSome → (findFile fs s2).isSome) →
      lookupStream ((cols.foldl (fun ws c => writeColumn fs dsz fsz c ws) ws).streams) sname =
        if sname ∉ ws.written ∧
            sname ∈ cols.flatMap (fun c => substreamNames c.type c.name 0) ∧
            (findFile fs sname).isSome then
          some (match lookupStream ws.streams sname with
            | some s => (⟨s.plain_offset, s.plain_count + fsz sname⟩ : WStream)
            | none => (⟨dsz sname, fsz sname⟩ : WStream))
        else lookupStream ws.streams sname := by
  intro cols
  induction cols with
  | nil =>
    intro ws sname hreg
    rw [List.foldl_nil, if_neg (by simp)]
  | cons c cs ih =>
    intro ws sname hreg
    rw [List.foldl_cons, ih (writeColumn fs dsz fsz c ws) sname
      (writeColumn_reg fs dsz fsz c ws hreg)]
    have hw1 : ∀ x, x ∈ (writeColumn fs dsz fsz c ws).written ↔
        x ∈ ws.written ∨ x ∈ substreamNames c.type c.name 0 :=
      (writeColumn_spec fs dsz fsz ws.streams c ws (fun _ _ => Or.inl rfl)).2.1
    have hcs := writeColumn_streams fs dsz fsz c ws sname hreg
    by_cases hm : sname ∈ ws.written
    · have hkeep : lookupStream (writeColumn fs dsz fsz c ws).streams sname =
          lookupStream ws.streams sname := by
        rw [hcs, if_neg (by simp [hm])]
      have hw2 : sname ∈ (writeColumn fs dsz fsz c ws).written :=
        (hw1 sname).mpr (Or.inl hm)
      rw [hkeep, if_neg (by simp [hw2]), if_neg (by simp [hm])]
    · by_cases hn : sname ∈ substreamNames c.type c.name 0
      · have hw2 : sname ∈ (writeColumn fs dsz fsz c ws).written :=
          (hw1 sname).mpr (Or.inr hn)
        by_cases hr : (findFile fs sname).isSome
        · have hval : lookupStream (writeColumn fs dsz fsz c ws).streams sname =
              some (match lookupStream ws.streams sname with
                | some s => (⟨s.plain_offset, s.plain_count + fsz sname⟩ : WStream)
                | none => (⟨dsz sname, fsz sname⟩ : WStream)) := by
            rw [hcs, if_pos ⟨hm, hn, hr⟩]
          rw [hval, if_neg (by simp [hw2]),
            if_pos ⟨hm, by rw [List.flatMap_cons]; exact List.mem_append.mpr (Or.inl hn), hr⟩]
        · have hkeep : lookupStream (writeColumn fs dsz fsz c ws).streams sname =
              lookupStream ws.streams sname := by
            rw [hcs, if_neg (fun h3 => hr h3.2.2)]
          rw [hkeep, if_neg (by simp [hw2]), if_neg (fun h3 => hr h3.2.2)]
      · have hkeep : lookupStream (writeColumn fs dsz fsz c ws).streams sname =
            lookupStream ws.streams sname := by
          rw [hcs, if_neg (fun h3 => hn h3.2.1)]
        have hw2 : sname ∈ (writeColumn fs dsz fsz c ws).written ↔ sname ∈ ws.written := by
          rw [hw1 sname]
          exact or_iff_left hn
        rw [hkeep]
        refine if_congr ?_ rfl rfl
        rw [List.flatMap_cons]
        constructor
        · rintro ⟨h1, h2, h3⟩
          exact ⟨fun hx => h1 (hw2.mpr hx), List.mem_append.mpr (Or.inr h2), h3⟩
        · rintro ⟨h1, h2, h3⟩
          rcases List.mem_append.mp h2 with h2a | h2b
          · exact absurd h2a hn
          · exact ⟨fun hx => h1 (hw2.mp hx), h2b, h3⟩

lemma writeBlockState_streams (dsz : String → Nat) (fs : List FileEntry)
    (streams0 : List (String × WStream)) (b : Block) (sname : String)
    (hreg : ∀ s2, (lookupStream streams0 s2).isSome → (findFile fs s2).isSome) :
    lookupStream (writeBlockState dsz fs streams0 b).streams sname =
      if sname ∈ blockNames b ∧ (findFile fs sname).isSome then
        some (match lookupStream streams0 sname with
          | some s => (⟨s.plain_offset, s.plain_count + b.fsz sname⟩ : WStream)
          | none => (⟨dsz sname, b.fsz sname⟩ : WStream))
      else lookupStream streams0 sname := by
  have h := blockFold_streams fs dsz b.fsz b.cols ⟨streams0, [], []⟩ sname hreg
  rw [writeBlockState, h]
  by_cases hc : sname ∈ blockNames b ∧ (findFile fs sname).isSome
  · rw [if_pos ⟨List.not_mem_nil sname, hc.1, hc.2⟩, if_pos hc]
  · rw [if_neg (fun h3 => hc ⟨h3.2.1, h3.2.2⟩), if_neg hc]

lemma writeBlockState_reg (dsz : String → Nat) (fs : List FileEntry)
    (streams0 : List (String × WStream)) (b : Block)
    (hreg : ∀ s2, (lookupStream streams0 s2).isSome → (findFile fs s2).isSome) :
    ∀ s2, (lookupStream (writeBlockState dsz fs streams0 b).streams s2).isSome →
      (findFile fs s2).isSome := by
  intro s2 h
  rw [writeBlockState_streams dsz fs streams0 b s2 hreg] at h
  by_cases hc : s2 ∈ blockNames b ∧ (findFile fs s2).isSome
  · exact hc.2
  · rw [if_neg hc] at h
    exact hreg s2 h

lemma writeBlockState_baseOffset (dsz : String → Nat) (fs : List FileEntry)
    (streams0 : List (String × WStream)) (b : Block) (sname : String)
    (hreg : ∀ s2, (lookupStream streams0 s2).isSome → (findFile fs s2).isSome) :
    baseOffset dsz (writeBlockState dsz fs streams0 b).streams sname =
      baseOffset dsz streams0 sname +
        (if sname ∈ blockNames b ∧ (findFile fs sname).isSome then b.fsz sname else 0) := by
  rw [baseOffset, writeBlockState_streams dsz fs streams0 b sname hreg]
  by_cases hc : sname ∈ blockNames b ∧ (findFile fs sname).isSome
  · rw [if_pos hc, if_pos hc]
    cases hx : lookupStream streams0 sname with
    | some s =>
      have hbase : baseOffset dsz streams0 sname = s.plain_offset + s.plain_count := by
        rw [baseOffset, hx]
      rw [hbase]
      show s.plain_offset + (s.plain_count + b.fsz sname) = _
      rw [Nat.add_assoc]
    | none =>
      have hbase : baseOffset dsz streams0 sname = dsz sname := by
        rw [baseOffset, hx]
      rw [hbase]
  · rw [if_neg hc, if_neg hc, Nat.add_zero, baseOffset]

lemma writeBlock_marks_char (dsz : String → Nat) (st : Storage)
    (streams0 : List (String × WStream)) (b : Block) (st' : Storage)
    (streams' : List (String × WStream))
    (hnod : ∀ c ∈ b.cols, (substreamNames c.type c.name 0).Nodup)
    (h : writeBlock dsz st streams0 b = .ok (st', streams')) :
    streams' = (writeBlockState dsz st.files streams0 b).streams ∧
    st'.files.length = st.files.length ∧
    ∀ k, k < st.files.length →
      ∃ fek mk, st.files[k]? = some fek ∧
        st'.files[k]? = some ⟨fek.name, fek.marks ++ [mk]⟩ ∧
        mk.offset = baseOffset dsz streams0 fek.name := by
  cases hwm : writeMarks (writeBlockState dsz st.files streams0 b).outMarks st with
  | error e =>
    simp only [writeBlock] at h
    rw [hwm] at h
    have h' : (Except.error e : Except Err (Storage × List (String × WStream))) =
      .ok (st', streams') := h
    cases h'
  | ok st2 =>
    simp only [writeBlock] at h
    rw [hwm] at h
    have h' : (Except.ok (st2, (writeBlockState dsz st.files streams0 b).streams) :
        Except Err (Storage × List (String × WStream))) = .ok (st', streams') := h
    injection h' with h''
    injection h'' with ha hb
    subst st2
    obtain ⟨hlen, hfiles⟩ := writeMarks_ok_char _ st st' hwm
    have hout := writeBlockState_marks dsz st.files streams0 b
    have hnodk : (((writeBlockState dsz st.files streams0 b).outMarks).map (·.1)).Nodup := by
      rw [hout]
      exact blockEmits_keys_nodup st.files _ b.cols hnod []
    have hbound : ∀ p ∈ (writeBlockState dsz st.files streams0 b).outMarks,
        p.1 < st.files.length := by
      intro p hp
      rw [hout] at hp
      obtain ⟨c, hc, s, fe, hw, hf, hm⟩ := blockEmits_mem st.files _ b.cols [] p hp
      obtain ⟨hg, -⟩ := findFile_some st.files s p.1 fe hf
      exact getElem?_some_lt st.files p.1 fe hg
    refine ⟨hb.symm, by rw [hfiles, foldl_pushMark_length], ?_⟩
    intro k hk
    have hkmem : k ∈ ((writeBlockState dsz st.files streams0 b).outMarks).map (·.1) := by
      refine mem_of_nodup_full _ st.files.length hnodk
        (by rw [List.length_map, hlen]) ?_ k hk
      intro x hx
      obtain ⟨p, hp, hpx⟩ := List.mem_map.mp hx
      rw [← hpx]
      exact hbound p hp
    obtain ⟨p, hp, hpk⟩ := List.mem_map.mp hkmem
    have hval : ∃ fek, st.files[k]? = some fek ∧
        p.2.offset = baseOffset dsz streams0 fek.name := by
      rw [hout] at hp
      obtain ⟨c, hc, s, fe, hw, hf, hm⟩ := blockEmits_mem st.files _ b.cols [] p hp
      obtain ⟨hg, hgn⟩ := findFile_some st.files s p.1 fe hf
      rw [hpk] at hg
      refine ⟨fe, hg, ?_⟩
      rw [hm, hgn]
    obtain ⟨fek, hgk, hoff⟩ := hval
    have hperm := List.perm_insertionSort (fun a b => a.1 ≤ b.1)
      ((writeBlockState dsz st.files streams0 b).outMarks)
    have hsortnod : ((List.insertionSort (fun a b => a.1 ≤ b.1)
        ((writeBlockState dsz st.files streams0 b).outMarks)).map (·.1)).Nodup :=
      ((hperm.map (·.1)).nodup_iff).mpr hnodk
    have hpmem : (k, p.2) ∈ List.insertionSort (fun a b => a.1 ≤ b.1)
        ((writeBlockState dsz st.files streams0 b).outMarks) := by
      refine hperm.mem_iff.mpr ?_
      rw [← hpk, Prod.mk.eta]
      exact hp
    have hfilter := filter_keys_singleton _ hsortnod k p.2 hpmem
    have hchar := foldl_pushMark (List.insertionSort (fun a b => a.1 ≤ b.1)
      ((writeBlockState dsz st.files streams0 b).outMarks)) st.files k
    rw [hfilter] at hchar
    refine ⟨fek, p.2, hgk, ?_, hoff⟩
    rw [hfiles, hchar, hgk]
    rfl

lemma map_name_eq_of_char (fs fs' : List FileEntry)
    (hlen : fs'.length = fs.length)
    (h : ∀ k, k < fs.length → ∃ fek ms2, fs[k]? = some fek ∧
      fs'[k]? = some ⟨fek.name, ms2⟩) :
    fs'.map (·.name) = fs.map (·.name) := by
  apply List.ext_getElem?
  intro i
  rw [List.getElem?_map, List.getElem?_map]
  by_cases hi : i < fs.length
  · obtain ⟨fek, ms2, h1, h2⟩ := h i hi
    rw [h1, h2]
    rfl
  · rw [List.getElem?_eq_none (by rw [hlen]; exact Nat.le_of_not_lt hi),
      List.getElem?_eq_none (Nat.le_of_not_lt hi)]

/-- The bytes block `b` flushes into substream `sname`'s plain buffer: one
compressed frame of `b.fsz sname` bytes when some column of `b` enumerates
`sname` and the table (whose substream file names are `names0`) registers
it, nothing otherwise. -/
def flushedInto (b : Block) (names0 : List String) (sname : String) : Nat :=
  if sname ∈ blockNames b ∧ sname ∈ names0 then b.fsz sname else 0

lemma writeBlocks_offsets_aux (dsz : String → Nat) (names0 : List String) :
    ∀ (bs : List Block) (st : Storage) (streams : List (String × WStream))
      (out : Storage × List (String × WStream)),
      st.files.map (·.name) = names0 →
      (∀ s2, (lookupStream streams s2).isSome → s2 ∈ names0) →
      (∀ b ∈ bs, ∀ c ∈ b.cols, (substreamNames c.type c.name 0).Nodup) →
      writeBlocks dsz st streams bs = .ok out →
      out.1.files.map (·.name) = names0 ∧
      ∀ k, k < st.files.length →
        ∃ fek ms, st.files[k]? = some fek ∧
          out.1.files[k]? = some ⟨fek.name, fek.marks ++ ms⟩ ∧
          ms.length = bs.length ∧
          ∀ i, i < bs.length →
            (ms.getD i default).offset =
              baseOffset dsz streams fek.name +
                ((bs.take i).map (fun b2 => flushedInto b2 names0 fek.name)).sum := by
  intro bs
  induction bs with
  | nil =>
    intro st streams out hnames hdom hnod h
    have h' : (Except.ok (st, streams) :
      Except Err (Storage × List (String × WStream))) = .ok out := h
    cases h'
    refine ⟨hnames, ?_⟩
    intro k hk
    obtain ⟨fek, hgk⟩ : ∃ fek, st.files[k]? = some fek := by
      rw [List.getElem?_eq_getElem hk]
      exact ⟨_, rfl⟩
    refine ⟨fek, [], hgk, ?_, rfl, fun i hi => absurd hi (Nat.not_lt_zero i)⟩
    rw [List.append_nil, hgk]
  | cons b bs ih =>
    intro st streams out hnames hdom hnod h
    cases hwb : writeBlock dsz st streams b with
    | error e =>
      rw [writeBlocks, hwb] at h
      have h' : (Except.error e :
        Except Err (Storage × List (String × WStream))) = .ok out := h
      cases h'
    | ok res =>
      obtain ⟨st1, streams1⟩ := res
      rw [writeBlocks, hwb] at h
      have h' : writeBlocks dsz st1 streams1 bs = .ok out := h
      have hreg : ∀ s2, (lookupStream streams s2).isSome →
          (findFile st.files s2).isSome := by
        intro s2 hs2
        rw [findFile_isSome_iff, hnames]
        exact hdom s2 hs2
      obtain ⟨hstr1, hlen1, hchar⟩ := writeBlock_marks_char dsz st streams b st1 streams1
        (hnod b (List.mem_cons_self b bs)) hwb
      have hnames1 : st1.files.map (·.name) = names0 := by
        rw [← hnames]
        exact map_name_eq_of_char st.files st1.files hlen1
          (fun k hk => by
            obtain ⟨fek, mk, h1, h2, h3⟩ := hchar k hk
            exact ⟨fek, _, h1, h2⟩)
      have hdom1 : ∀ s2, (lookupStream streams1 s2).isSome → s2 ∈ names0 := by
        intro s2 hs2
        rw [hstr1] at hs2
        have h4 := writeBlockState_reg dsz st.files streams b hreg s2 hs2
        rw [findFile_isSome_iff, hnames] at h4
        exact h4
      obtain ⟨hnout, hmarks⟩ := ih st1 streams1 out hnames1 hdom1
        (fun b2 hb2 => hnod b2 (List.mem_cons_of_mem b hb2)) h'
      refine ⟨hnout, ?_⟩
      intro k hk
      obtain ⟨fek, mk, hg1, hg2, hoff⟩ := hchar k hk
      obtain ⟨fek1, ms1, hg1', hg2', hlen', hoffs⟩ := hmarks k (by rw [hlen1]; exact hk)
      have hfe : fek1 = ⟨fek.name, fek.marks ++ [mk]⟩ :=
        Option.some.inj (hg1'.symm.trans hg2)
      have hname1 : fek1.name = fek.name := by rw [hfe]
      have hmarks1 : fek1.marks = fek.marks ++ [mk] := by rw [hfe]
      rw [hname1, hmarks1] at hg2'
      rw [hname1] at hoffs
      have hiff : (findFile st.files fek.name).isSome ↔ fek.name ∈ names0 := by
        rw [findFile_isSome_iff, hnames]
      have hbase : baseOffset dsz streams1 fek.name =
          baseOffset dsz streams fek.name + flushedInto b names0 fek.name := by
        rw [hstr1, writeBlockState_baseOffset dsz st.files streams b fek.name hreg,
          flushedInto]
        congr 1
        exact if_congr (and_congr_right (fun _ => hiff)) rfl rfl
      refine ⟨fek, mk :: ms1, hg1, ?_, ?_, ?_⟩
      · rw [hg2']
        show some (⟨fek.name, (fek.marks ++ [mk]) ++ ms1⟩ : FileEntry) = _
        rw [List.append_assoc, List.singleton_append]
      · rw [List.length_cons, List.length_cons, hlen']
      · intro i hi
        cases i with
        | zero =>
          rw [List.getD_cons_zero, List.take_zero, List.map_nil, List.sum_nil,
            Nat.add_zero]
          exact hoff
        | succ i =>
          have hi' : i < bs.length := Nat.lt_of_succ_lt_succ hi
          rw [List.getD_cons_succ, hoffs i hi', hbase, List.take_succ_cons,
            List.map_cons, List.sum_cons, Nat.add_assoc]

/-- C4 amended.  For every substream of any table and every mark index `i`
among the marks a writer session appends: the offset recorded in the `i`-th
mark equals the byte position in that substream's data file at which block
`i`'s *own* compressed frames begin — the file's size when this writer
opens the stream (`dsz`) plus the bytes of the frames blocks `0..i-1`
flushed into the substream (`flushedInto`: one frame per block whose
columns enumerate it; a substream shared by several columns of a block is
flushed once, by the first column that reaches it) — so the frame of block
`i` (not `i+1`) starts at `marks[s][i].offset`.  Each successful
`write(block)` appends exactly one mark to every substream, so mark index
`i` is block `i`. -/
theorem claim4_amended (dsz : String → Nat) (st : Storage) (bs : List Block)
    (out : Storage × List (String × WStream))
    (hnod : ∀ b ∈ bs, ∀ c ∈ b.cols, (substreamNames c.type c.name 0).Nodup)
    (hwrite : writeBlocks dsz st [] bs = .ok out) :
    ∀ k, k < st.files.length →
      ∃ fek ms, st.files[k]? = some fek ∧
        out.1.files[k]? = some ⟨fek.name, fek.marks ++ ms⟩ ∧
        ms.length = bs.length ∧
        ∀ i, i < bs.length →
          (ms.getD i default).offset =
            dsz fek.name + ((bs.take i).map
              (fun b2 => flushedInto b2 (st.files.map (·.name)) fek.name)).sum := by
  have h := (writeBlocks_offsets_aux dsz (st.files.map (·.name)) bs st [] out rfl
    (fun s2 hs2 => absurd hs2 (by simp [lookupStream])) hnod hwrite).2
  intro k hk
  obtain ⟨fek, ms, h1, h2, h3, h4⟩ := h k hk
  refine ⟨fek, ms, h1, h2, h3, fun i hi => ?_⟩
  have h5 := h4 i hi
  rw [show baseOffset dsz [] fek.name = dsz fek.name from rfl] at h5
  exact h5

/-- Witness for C4's amended claim: a two-substream table (`arr.size0` and
`arr`, from one Array column) over 10-byte data files, two blocks whose
frames are 5 then 6 bytes; substream `arr`'s second mark records offset
`10 + 5 = 15`, where block 1's own frame begins. -/
theorem claim4_witness :
    ∃ out, writeBlocks (fun _ => 10)
        ⟨[⟨"arr.size0", []⟩, ⟨"arr", []⟩], none, true⟩ []
        [⟨[⟨"arr", .array .uint64, 3⟩], fun _ => 5⟩,
         ⟨[⟨"arr", .array .uint64, 2⟩], fun _ => 6⟩] = .ok out ∧
      ∃ fek ms,
        ([⟨"arr.size0", []⟩, ⟨"arr", []⟩] : List FileEntry)[(1 : Nat)]? = some fek ∧
        out.1.files[(1 : Nat)]? = some ⟨fek.name, fek.marks ++ ms⟩ ∧
        ms.length = 2 ∧ (ms.getD 1 default).offset = 15 := by
  cases hrun : writeBlocks (fun _ => 10)
      ⟨[⟨"arr.size0", []⟩, ⟨"arr", []⟩], none, true⟩ []
      [⟨[⟨"arr", .array .uint64, 3⟩], fun _ => 5⟩,
       ⟨[⟨"arr", .array .uint64, 2⟩], fun _ => 6⟩] with
  | error e =>
    have hok : (writeBlocks (fun _ => 10)
        ⟨[⟨"arr.size0", []⟩, ⟨"arr", []⟩], none, true⟩ []
        [⟨[⟨"arr", .array .uint64, 3⟩], fun _ => 5⟩,
         ⟨[⟨"arr", .array .uint64, 2⟩], fun _ => 6⟩]).map (fun res => res.1.files) =
        .ok [⟨"arr.size0", [⟨3, 10⟩, ⟨5, 15⟩]⟩, ⟨"arr", [⟨3, 10⟩, ⟨5, 15⟩]⟩] := by
      decide
    rw [hrun] at hok
    have hok2 : (Except.error e : Except Err (List FileEntry)) =
        .ok [⟨"arr.size0", [⟨3, 10⟩, ⟨5, 15⟩]⟩, ⟨"arr", [⟨3, 10⟩, ⟨5, 15⟩]⟩] := hok
    cases hok2
  | ok res =>
    have h := claim4_amended (fun _ => 10)
      ⟨[⟨"arr.size0", []⟩, ⟨"arr", []⟩], none, true⟩
      [⟨[⟨"arr", .array .uint64, 3⟩], fun _ => 5⟩,
       ⟨[⟨"arr", .array .uint64, 2⟩], fun _ => 6⟩] res
      (fun b hb => by
        rcases List.mem_cons.mp hb with rfl | hb2
        · intro c hc
          rw [List.mem_singleton.mp hc]
          decide
        · rcases List.mem_cons.mp hb2 with rfl | hb3
          · intro c hc
            rw [List.mem_singleton.mp hc]
            decide
          · cases hb3)
      hrun 1 (by decide)
    obtain ⟨fek, ms, h1, h2, h3, h4⟩ := h
    have hfe : fek = ⟨"arr", []⟩ := by
      have h5 : some fek = some (⟨"arr", []⟩ : FileEntry) := by
        rw [← h1]
        decide
      exact Option.some.inj h5
    subst hfe
    refine ⟨res, rfl, ⟨"arr", []⟩, ms, by decide, h2, h3, ?_⟩
    have h6 := h4 1 (by decide)
    rw [h6]
    decide

end StorageLog
